import Mathlib

/-!
# go22dos: the editing buffer, cursor, viewport, renderer, persistence, key decoder and
key dispatch of `main.c`

A shallow embedding of `src/go22dos_c/main.c`.

* The global `struct config APP` is passed explicitly: every C function that reads or writes
  `APP` takes the state and returns the new one.
* A byte is a natural number `0..255` (its unsigned value). C `int`s are mathematical integers:
  signed overflow is undefined behaviour in C and lies outside the model.
* A heap array with its element count is a list: `APP.row` with `APP.n_rows`, `row->chars` with
  `row->size`, `row->render` with `row->rsize`. The terminating `'\0'` the C code keeps after
  `chars` and `render` is not part of the list.
* Reading `APP.row[i]` for an index outside `[0, n_rows)` is undefined behaviour in C; the
  functions that index `APP.row` return `Option`, with `none` for such a read.
-/

namespace Go22dos

/-! ## Data model -/

/-- The C `struct arow`: `chars` holds the `size` content bytes, `render` the `rsize` bytes
drawn on screen. -/
structure arow where
  chars : List Nat
  render : List Nat
  deriving DecidableEq, Repr

/-- The field `size` of a row: the number of content bytes. -/
def arow.size (r : arow) : Int := r.chars.length

/-- The field `rsize` of a row: the number of render bytes. -/
def arow.rsize (r : arow) : Int := r.render.length

/-- The C `struct config` (the global `APP`), without `last_save` and `orig_termios`. -/
structure config where
  c_x : Int
  c_y : Int
  row_offset : Int
  col_offset : Int
  rows : Int
  cols : Int
  row : List arow
  filename : Option (List Nat)
  deriving DecidableEq, Repr

/-- The field `n_rows`: the number of rows of the document. -/
def config.n_rows (APP : config) : Int := APP.row.length

/-! ### `enum keymap` -/

def BACKSPACE : Int := 127
def ARROW_LEFT : Int := 1000
def ARROW_RIGHT : Int := 1001
def ARROW_UP : Int := 1002
def ARROW_DOWN : Int := 1003
def DEL_KEY : Int := 1004
def HOME_KEY : Int := 1005
def END_KEY : Int := 1006
def PAGE_UP : Int := 1007
def PAGE_DOWN : Int := 1008

/-- The read `APP.row[i]`: `none` when `i` is not an index of the array. -/
def row_at (APP : config) (i : Int) : Option arow :=
  if 0 ≤ i then APP.row[i.toNat]? else none

/-- The size of the row on line `y`, and `0` when line `y` has no row. -/
def row_len (APP : config) (y : Int) : Int :=
  match row_at APP y with
  | some r => r.size
  | none => 0

/-! ## Viewport: `scroll` (main.c 217-225) -/

/-- The C function `scroll`. -/
def scroll (APP : config) : config :=
  let APP := if APP.c_y < APP.row_offset then { APP with row_offset := APP.c_y } else APP
  let APP :=
    if APP.c_y ≥ APP.row_offset + APP.rows then
      { APP with row_offset := APP.c_y - APP.rows + 1 }
    else APP
  let APP := if APP.c_x < APP.col_offset then { APP with col_offset := APP.c_x } else APP
  let APP :=
    if APP.c_x ≥ APP.col_offset + APP.cols then
      { APP with col_offset := APP.c_x - APP.cols + 1 }
    else APP
  APP

/-! ## Cursor: `move_cursor` (main.c 408-439) -/

/-- The `switch (key)` of `move_cursor`. The pointer `row` of the C code is `NULL` exactly when
`APP.c_y >= APP.n_rows`; it is dereferenced in the `ARROW_RIGHT` case only. -/
def move_cursor_switch (APP : config) (key : Int) : Option config :=
  if key = ARROW_LEFT then
    if APP.c_x ≠ 0 then
      some { APP with c_x := APP.c_x - 1 }
    else if APP.c_y > 0 then
      match row_at APP (APP.c_y - 1) with
      | some r => some { APP with c_y := APP.c_y - 1, c_x := r.size }
      | none => none
    else some APP
  else if key = ARROW_RIGHT then
    if APP.c_y ≥ APP.n_rows then some APP
    else
      match row_at APP APP.c_y with
      | some r =>
        if APP.c_x < r.size then some { APP with c_x := APP.c_x + 1 }
        else if APP.c_x = r.size then some { APP with c_y := APP.c_y + 1, c_x := 0 }
        else some APP
      | none => none
  else if key = ARROW_UP then
    if APP.c_y ≠ 0 then some { APP with c_y := APP.c_y - 1 } else some APP
  else if key = ARROW_DOWN then
    if APP.c_y < APP.n_rows then some { APP with c_y := APP.c_y + 1 } else some APP
  else some APP

/-- The last three lines of `move_cursor`: `row_len` is the size of the row under the cursor, or
`0` when `row` is `NULL`; a column beyond it snaps back to it. -/
def move_cursor_clamp (APP : config) : Option config :=
  if APP.c_y ≥ APP.n_rows then
    some (if APP.c_x > 0 then { APP with c_x := 0 } else APP)
  else
    match row_at APP APP.c_y with
    | some r => some (if APP.c_x > r.size then { APP with c_x := r.size } else APP)
    | none => none

/-- The C function `move_cursor`. -/
def move_cursor (APP : config) (key : Int) : Option config :=
  match move_cursor_switch APP key with
  | some APP1 => move_cursor_clamp APP1
  | none => none

/-- A finite sequence of `move_cursor` calls, one per key of the list, in order. -/
def move_cursor_seq (APP : config) : List Int → Option config
  | [] => some APP
  | key :: keys =>
    match move_cursor APP key with
    | some APP1 => move_cursor_seq APP1 keys
    | none => none

/-! ## Row store (main.c 305-348) -/

/-- The C function `update_row`: the loop copies `chars[j]` to `render[idx++]` for `j` from `0`
to `size - 1`, and `rsize` is the final `idx`. -/
def update_row (row : arow) : arow :=
  { row with render := row.chars.foldl (fun render ch => render ++ [ch]) [] }

/-- The C function `append_row(s, len)`: the new last row holds the first `len` bytes of `s`
(the `memcpy`), its render starts as `NULL` with `rsize = 0`, and `update_row` derives it. Both
callers pass a `len` that is at most the number of bytes of `s`. -/
def append_row (APP : config) (s : List Nat) (len : Nat) : config :=
  { APP with row := APP.row ++ [update_row { chars := s.take len, render := [] }] }

/-- The library call `memmove(&buf[dst], &buf[src], n)`: the `n` bytes read at `src` land at
`dst`, the other bytes stay. The caller keeps `src + n` and `dst + n` within the buffer. -/
def memmove (buf : List Nat) (dst src n : Nat) : List Nat :=
  buf.take dst ++ ((buf.drop src).take n ++ buf.drop (dst + n))

/-- The conversion of an `int` to the byte stored by `row->chars[at] = c`. -/
def int_to_byte (c : Int) : Nat := (c % 256).toNat

/-- The C function `row_insert_char(row, at, c)`. The buffer of the row holds the `size`
content bytes and the terminating `'\0'`; `realloc` adds one byte at its end, `memmove` shifts
the `size - at + 1` bytes at `at` one place right, and `c` is stored at `at`. -/
def row_insert_char (row : arow) (at_ : Int) (c : Int) : arow :=
  let at_ := if at_ < 0 ∨ at_ > row.size then row.size else at_
  let buf := row.chars ++ [0] ++ [0]
  let buf := memmove buf (at_.toNat + 1) at_.toNat (row.size - at_ + 1).toNat
  let buf := buf.set at_.toNat (int_to_byte c)
  update_row { row with chars := buf.take (row.size + 1).toNat }

/-- The C function `insert_char`. -/
def insert_char (APP : config) (c : Int) : Option config :=
  let APP := if APP.c_y = APP.n_rows then append_row APP [] 0 else APP
  match row_at APP APP.c_y with
  | some r =>
    some { APP with
      row := APP.row.set APP.c_y.toNat (row_insert_char r APP.c_x c),
      c_x := APP.c_x + 1 }
  | none => none

/-! ## Persistence (main.c 350-385) -/

/-- The C function `rows_to_string`: the buffer it returns and the length it stores in
`*buflen`. The first loop sums `size + 1` over the rows; the second writes, row after row, the
`size` content bytes and one `'\n'`. -/
def rows_to_string (APP : config) : List Nat × Int :=
  let totlen := APP.row.foldl (fun totlen r => totlen + (r.size + 1)) 0
  let buf := APP.row.foldl (fun buf r => buf ++ r.chars ++ [10]) []
  (buf, totlen)

/-- The library call `getline` on the unread bytes of the file: `none` (the C `-1`) at end of
file, else the line read (up to and with the first `'\n'`, or up to end of file when there is
none) and the bytes left. -/
def getline : List Nat → Option (List Nat × List Nat)
  | [] => none
  | b :: fp =>
    if b = 10 then some ([b], fp)
    else
      match getline fp with
      | some (line, rest) => some (b :: line, rest)
      | none => some ([b], [])

/-- The inner loop of `oopen`:
`while (linelen > 0 && (line[linelen - 1] == '\n' || line[linelen - 1] == '\r')) linelen--;`
and the `linelen` it ends with. -/
def strip_eol (line : List Nat) : Nat → Nat
  | 0 => 0
  | linelen + 1 =>
    if line.get? linelen = some 10 ∨ line.get? linelen = some 13 then strip_eol line linelen
    else linelen + 1

/-- The outer loop of `oopen`, `while ((linelen = getline(&line, &linecap, fp)) != -1)`, run
for at most `fuel` iterations: `none` when the fuel runs out before `getline` returns `-1`. -/
def oopen_loop : Nat → config → List Nat → Option config
  | 0, _, _ => none
  | fuel + 1, APP, fp =>
    match getline fp with
    | none => some APP
    | some (line, rest) => oopen_loop fuel (append_row APP line (strip_eol line line.length)) rest

/-- The C function `oopen` on a file that `fopen` opens, `fp` being the bytes of the file. Every
iteration of the loop reads at least one byte, so one more iteration than there are bytes is
enough fuel. -/
def oopen (APP : config) (filename : List Nat) (fp : List Nat) : Option config :=
  oopen_loop (fp.length + 1) { APP with filename := some filename } fp

/-- A line without its trailing `'\r'` bytes: what the loader keeps of a line that holds no
`'\n'`. -/
def strip_cr (l : List Nat) : List Nat := l.rdropWhile (fun b => decide (b = 13))

/-- The contents of the document: the `chars` of every row, in order. -/
def contents (APP : config) : List (List Nat) := APP.row.map arow.chars

/-- The C function `init`, given the size `get_window_size` reports: the empty document with the
cursor and the offsets at `0`; one screen row is kept for the status bar. -/
def init (rows cols : Int) : config :=
  { c_x := 0, c_y := 0, row_offset := 0, col_offset := 0, rows := rows - 1, cols := cols,
    row := [], filename := none }

/-! ## Key decoder: `read_key` (main.c 97-145) -/

/-- The outcome of one `read(STDIN_FILENO, &c, 1)`: a byte (the call returns `1`), nothing
within the read window (it returns `0`), `-1` with `errno == EAGAIN`, or `-1` with another
`errno`. The input of the decoder is the list of the outcomes of its reads; once the list is
used up every read returns `0`. -/
inductive rd where
  | byte (b : Nat)
  | zero
  | eagain
  | fail
  deriving DecidableEq, Repr

/-- What a call of `read_key` does: it returns the key `c`, leaving `rest` unread; or it calls
`die`; or it waits for a first byte that never comes. -/
inductive key_result where
  | key (c : Int) (rest : List rd)
  | die
  | blocked
  deriving DecidableEq, Repr

/-- One read inside an escape sequence, `read(STDIN_FILENO, &seq[i], 1)`: the byte when the call
returns `1`, and the input left. -/
def read_seq : List rd → Option Nat × List rd
  | [] => (none, [])
  | rd.byte b :: rest => (some b, rest)
  | _ :: rest => (none, rest)

/-- The value of `return c` for the `char c` read: `char` is signed on the targets of the
program (x86-64 Linux), so bytes from 128 on are negative numbers. -/
def char_to_int (b : Nat) : Int := if b < 128 then b else (b : Int) - 256

/-- The branch `if (c == '\x1b')` of `read_key`: the reads that follow the ESC byte. -/
def read_escape (stdin : List rd) : Int × List rd :=
  match read_seq stdin with
  | (none, rest) => (27, rest)
  | (some seq0, rest0) =>
    match read_seq rest0 with
    | (none, rest) => (27, rest)
    | (some seq1, rest1) =>
      if seq0 = 91 then
        if 48 ≤ seq1 ∧ seq1 ≤ 57 then
          match read_seq rest1 with
          | (none, rest) => (27, rest)
          | (some seq2, rest2) =>
            if seq2 = 126 then
              if seq1 = 49 then (HOME_KEY, rest2)
              else if seq1 = 51 then (DEL_KEY, rest2)
              else if seq1 = 52 then (END_KEY, rest2)
              else if seq1 = 53 then (PAGE_UP, rest2)
              else if seq1 = 54 then (PAGE_DOWN, rest2)
              else if seq1 = 55 then (HOME_KEY, rest2)
              else if seq1 = 56 then (END_KEY, rest2)
              else (27, rest2)
            else (27, rest2)
        else
          if seq1 = 65 then (ARROW_UP, rest1)
          else if seq1 = 66 then (ARROW_DOWN, rest1)
          else if seq1 = 67 then (ARROW_RIGHT, rest1)
          else if seq1 = 68 then (ARROW_LEFT, rest1)
          else if seq1 = 72 then (HOME_KEY, rest1)
          else if seq1 = 70 then (END_KEY, rest1)
          else (27, rest1)
      else if seq0 = 79 then
        if seq1 = 72 then (HOME_KEY, rest1)
        else if seq1 = 70 then (END_KEY, rest1)
        else (27, rest1)
      else (27, rest1)

/-- The C function `read_key`. The first loop reads until a read returns `1`; it calls `die`
on a `-1` whose `errno` is not `EAGAIN`. -/
def read_key : List rd → key_result
  | [] => key_result.blocked
  | rd.byte c :: rest =>
    if c = 27 then key_result.key (read_escape rest).1 (read_escape rest).2
    else key_result.key (char_to_int c) rest
  | rd.zero :: rest => read_key rest
  | rd.eagain :: rest => read_key rest
  | rd.fail :: _ => key_result.die

/-- The key sequences `read_key` has a table entry for, as a test on the reads that follow the
ESC byte: `[` and a letter of the letter table, `[` and a digit of the digit table and `~`, or
`O` and `H` or `F`. -/
def in_key_table : List rd → Bool
  | rd.byte seq0 :: rd.byte seq1 :: rest =>
    if seq0 = 91 then
      if 48 ≤ seq1 ∧ seq1 ≤ 57 then
        match rest with
        | rd.byte seq2 :: _ => decide (seq2 = 126 ∧ seq1 ∈ [49, 51, 52, 53, 54, 55, 56])
        | _ => false
      else decide (seq1 ∈ [65, 66, 67, 68, 72, 70])
    else if seq0 = 79 then decide (seq1 ∈ [72, 70])
    else false
  | _ => false

/-- The digit table of `read_key`, in the words of the specification: the key for ESC `[` `d`
`b`, where `d` is a digit. -/
def digit_table (d b : Nat) : Int :=
  if b = 126 then
    if d = 49 ∨ d = 55 then HOME_KEY
    else if d = 51 then DEL_KEY
    else if d = 52 ∨ d = 56 then END_KEY
    else if d = 53 then PAGE_UP
    else if d = 54 then PAGE_DOWN
    else 27
  else 27

/-! ## Screen renderer (main.c 227-302) -/

def CLEAR_LINE : List Nat := [27, 91, 75]
def INIT_CURSOR_POSITION : List Nat := [27, 91, 72]
def INVISIBLE_CURSOR : List Nat := [27, 91, 63, 50, 53, 108]
def VISIBLE_CURSOR : List Nat := [27, 91, 63, 50, 53, 104]

/-- The text `"type CTRL + q and give me text"` that `draw_rows` formats into `msg`; it has 30
bytes. -/
def welcome_msg : List Nat :=
  [116, 121, 112, 101, 32, 67, 84, 82, 76, 32, 43, 32, 113, 32, 97, 110, 100, 32, 103, 105,
    118, 101, 32, 109, 101, 32, 116, 101, 120, 116]

/-- The body of the loop of `draw_rows` for the screen row `i`: the bytes it appends to the
frame. It is `none` where the C code reads outside a buffer: a row outside `APP.row`, a render
read at a negative `col_offset`, a message of negative length. -/
def draw_row (APP : config) (i : Int) : Option (List Nat) :=
  let file_row := i + APP.row_offset
  let content : Option (List Nat) :=
    if file_row ≥ APP.n_rows then
      if APP.n_rows = 0 ∧ i = Int.tdiv APP.rows 3 then
        if APP.cols < 0 then none
        else
          let msglen : Int := if 30 > APP.cols then APP.cols else 30
          let padding := Int.tdiv (APP.cols - msglen) 2
          some ((if padding ≠ 0 then 126 :: List.replicate (padding - 1).toNat 32 else []) ++
            welcome_msg.take msglen.toNat)
      else some [126]
    else
      match row_at APP file_row with
      | some r =>
        if APP.col_offset < 0 then none
        else
          let len := r.rsize - APP.col_offset
          let len := if len < 0 then 0 else len
          some ((r.render.drop APP.col_offset.toNat).take len.toNat)
      | none => none
  match content with
  | some bytes => some (bytes ++ CLEAR_LINE ++ [13, 10])
  | none => none

/-- The loop `for (i = ...; i < APP.rows; i++)` of `draw_rows` with `n` iterations left. -/
def draw_rows_loop (APP : config) : Nat → Int → Option (List Nat)
  | 0, _ => some []
  | n + 1, i =>
    match draw_row APP i with
    | some bytes =>
      match draw_rows_loop APP n (i + 1) with
      | some more => some (bytes ++ more)
      | none => none
    | none => none

/-- The C function `draw_rows`: the bytes it appends to the frame. -/
def draw_rows (APP : config) : Option (List Nat) := draw_rows_loop APP APP.rows.toNat 0

/-- The decimal digits of `n`, most significant first (`fuel` bounds the number of digits). -/
def dec_digits : Nat → Nat → List Nat
  | 0, _ => []
  | fuel + 1, n => if n < 10 then [48 + n] else dec_digits fuel (n / 10) ++ [48 + n % 10]

/-- The conversion `%d` of `snprintf`. -/
def fmt_d (n : Int) : List Nat :=
  if n < 0 then 45 :: dec_digits (n.natAbs + 1) n.natAbs else dec_digits (n.natAbs + 1) n.natAbs

/-- The buffer `buf` of `refresh_screen` after
`snprintf(buf, sizeof(buf), "\x1b[%d;%dH", (APP.c_y + APP.row_offset) + 1,
(APP.c_x + APP.col_offset) + 1)`; the text is shorter than the 32 bytes of `buf`. -/
def cursor_position (APP : config) : List Nat :=
  [27, 91] ++ fmt_d ((APP.c_y + APP.row_offset) + 1) ++ [59] ++
    fmt_d ((APP.c_x + APP.col_offset) + 1) ++ [72]

/-- The cursor-position sequence in the words of the specification: the screen coordinates are
derived from `(c_x - col_offset, c_y - row_offset)`. -/
def spec_cursor_position (APP : config) : List Nat :=
  [27, 91] ++ fmt_d ((APP.c_y - APP.row_offset) + 1) ++ [59] ++
    fmt_d ((APP.c_x - APP.col_offset) + 1) ++ [72]

/-- The C function `refresh_screen`: the state after `scroll()` and the frame written. The bytes
`draw_status_bar` appends depend on the file name and on the time of the last save; they are
taken as given, `status_bar`. -/
def refresh_screen (APP : config) (status_bar : List Nat) : Option (config × List Nat) :=
  let APP := scroll APP
  match draw_rows APP with
  | some rows_bytes =>
    some (APP, INVISIBLE_CURSOR ++ INIT_CURSOR_POSITION ++ rows_bytes ++ status_bar ++
      cursor_position APP ++ VISIBLE_CURSOR)
  | none => none

/-! ## Edit loop: `process_keypress` (main.c 441-500) -/

/-- The macro `CTRL_KEY(k)`, `(k) & 0x1f`. -/
def CTRL_KEY (k : Nat) : Int := (Nat.land k 31 : Nat)

/-- The C function `save`: the state, which it leaves as it is, and the bytes it writes to the
file when there is a file name and the file can be written. The time of the save
(`APP.last_save`) is not part of the model. -/
def save (APP : config) : config × Option (List Nat) :=
  match APP.filename with
  | none => (APP, none)
  | some _ => (APP, some (rows_to_string APP).1)

/-- What the `switch` of `process_keypress` does: it goes on with a new state, it leaves the
program (`exit`), or it reads outside `APP.row`. -/
inductive press_result where
  | next (APP : config)
  | exit
  | undefined
  deriving DecidableEq, Repr

/-- From the result of `move_cursor` or `insert_char` to the result of the `switch`. -/
def press_result.of_option : Option config → press_result
  | some APP => press_result.next APP
  | none => press_result.undefined

/-- The loop `while (times--) move_cursor(key)` with `times` iterations left. -/
def move_cursor_times : Nat → config → Int → Option config
  | 0, APP, _ => some APP
  | times + 1, APP, key =>
    match move_cursor APP key with
    | some APP1 => move_cursor_times times APP1 key
    | none => none

/-- The `switch (c)` of `process_keypress` on the key `c` that `read_key` returned. In the page
case a negative `APP.rows` makes `while (times--)` count down without end; that is
`undefined`. -/
def process_keypress_switch (APP : config) (c : Int) : press_result :=
  if c = 13 then press_result.next APP
  else if c = CTRL_KEY 113 then press_result.exit
  else if c = HOME_KEY then press_result.next { APP with c_x := 0 }
  else if c = END_KEY then
    if APP.c_y < APP.n_rows then
      match row_at APP APP.c_y with
      | some r => press_result.next { APP with c_x := r.size }
      | none => press_result.undefined
    else press_result.next APP
  else if c = PAGE_UP ∨ c = PAGE_DOWN then
    let APP :=
      if c = PAGE_UP then { APP with c_y := APP.row_offset }
      else
        let y := APP.row_offset + APP.rows - 1
        { APP with c_y := if y > APP.n_rows then APP.n_rows else y }
    if APP.rows < 0 then press_result.undefined
    else
      press_result.of_option
        (move_cursor_times APP.rows.toNat APP (if c = PAGE_UP then ARROW_UP else ARROW_DOWN))
  else if c = ARROW_UP ∨ c = ARROW_DOWN ∨ c = ARROW_LEFT ∨ c = ARROW_RIGHT then
    press_result.of_option (move_cursor APP c)
  else if c = CTRL_KEY 108 ∨ c = 27 then press_result.next APP
  else if c = CTRL_KEY 115 then press_result.next (save APP).1
  else if c = BACKSPACE then press_result.next APP
  else press_result.of_option (insert_char APP c)

/-- What a call of `process_keypress` does: as `press_result`, with the input left unread, and
the two ways `read_key` does not return. -/
inductive keypress_result where
  | next (APP : config) (stdin : List rd)
  | exit
  | undefined
  | die
  | blocked
  deriving DecidableEq, Repr

/-- The C function `process_keypress`. -/
def process_keypress (APP : config) (stdin : List rd) : keypress_result :=
  match read_key stdin with
  | key_result.key c rest =>
    match process_keypress_switch APP c with
    | press_result.next APP1 => keypress_result.next APP1 rest
    | press_result.exit => keypress_result.exit
    | press_result.undefined => keypress_result.undefined
  | key_result.die => keypress_result.die
  | key_result.blocked => keypress_result.blocked

/-- The loop of `main` on a list of decoded keys: before every key `scroll()` runs (the first
step of `refresh_screen`), then the `switch` of `process_keypress` handles the key. -/
def edit_loop (APP : config) : List Int → press_result
  | [] => press_result.next APP
  | c :: keys =>
    match process_keypress_switch (scroll APP) c with
    | press_result.next APP1 => edit_loop APP1 keys
    | press_result.exit => press_result.exit
    | press_result.undefined => press_result.undefined

/-- An edit of the row store: `append_row(s, len)`, `insert_char(c)`, or a change of the cursor
between two edits. -/
inductive edit_op where
  | append (s : List Nat) (len : Nat)
  | insert (c : Int)
  | cursor (x y : Int)
  deriving DecidableEq, Repr

/-- One edit of the row store. -/
def edit_step (APP : config) : edit_op → Option config
  | edit_op.append s len => some (append_row APP s len)
  | edit_op.insert c => insert_char APP c
  | edit_op.cursor x y => some { APP with c_x := x, c_y := y }

/-- A sequence of edits of the row store, in order. -/
def edit_run (APP : config) : List edit_op → Option config
  | [] => some APP
  | op :: ops =>
    match edit_step APP op with
    | some APP1 => edit_run APP1 ops
    | none => none

/-! ## Invariants and sample states -/

/-- The cursor invariant: the line is in `[0, n_rows]`, the column is in `[0, size]` of the row
on that line, and the column is `0` on the line one past the last row. -/
def cursor_inv (APP : config) : Prop :=
  0 ≤ APP.c_y ∧ APP.c_y ≤ APP.n_rows ∧
  (APP.c_y < APP.n_rows → 0 ≤ APP.c_x ∧ APP.c_x ≤ row_len APP APP.c_y) ∧
  (APP.c_y = APP.n_rows → APP.c_x = 0)

instance (APP : config) : Decidable (cursor_inv APP) := by
  unfold cursor_inv; infer_instance

/-- The viewport invariant: the cursor lies inside the visible band of lines and of columns. -/
def viewport_inv (APP : config) : Prop :=
  APP.row_offset ≤ APP.c_y ∧ APP.c_y < APP.row_offset + APP.rows ∧
  APP.col_offset ≤ APP.c_x ∧ APP.c_x < APP.col_offset + APP.cols

instance (APP : config) : Decidable (viewport_inv APP) := by
  unfold viewport_inv; infer_instance

/-- A row holding the content `s`, with its render in step. -/
def mk_row (s : List Nat) : arow := { chars := s, render := s }

/-- A state with the document `rows`, the cursor at column `x` of line `y`, offsets `0` and a
24 by 80 screen. -/
def mk_config (rows : List (List Nat)) (x y : Int) : config :=
  { c_x := x, c_y := y, row_offset := 0, col_offset := 0, rows := 24, cols := 80,
    row := rows.map mk_row, filename := none }

/-- Render and content agree in every row of the document. -/
def render_inv (APP : config) : Prop :=
  ∀ r ∈ APP.row, r.render = r.chars ∧ r.rsize = r.size

instance (APP : config) : Decidable (render_inv APP) := by
  unfold render_inv; infer_instance

/-- The invariant of the edit loop: the cursor invariant, the offsets between `0` and the
number of rows (the line offset) or not negative (the column offset). -/
def loop_inv (APP : config) : Prop :=
  cursor_inv APP ∧ 0 ≤ APP.row_offset ∧ APP.row_offset ≤ APP.n_rows ∧ 0 ≤ APP.col_offset

instance (APP : config) : Decidable (loop_inv APP) := by
  unfold loop_inv; infer_instance

/-- The state of the loop of `main` on a 24 by 80 terminal after the key `a` was typed a hundred
times: one row of a hundred bytes, the cursor at its end, and the column offset `20` that
`scroll` left before the last key. -/
def long_row_typed : config :=
  { init 24 80 with row := [mk_row (List.replicate 100 97)], c_x := 100, col_offset := 20 }

/-- The state of the loop of `main` on a 24 by 80 terminal after the key `a` was typed a hundred
times and the home key once: the cursor is back at column `0`, the column offset is the `21`
that `scroll` left before the home key. -/
def long_row_home : config :=
  { init 24 80 with row := [mk_row (List.replicate 100 97)], c_x := 0, col_offset := 21 }

/-! ## Theorems -/

/-- C3: with at least one visible row and one visible column, whatever the previous offsets,
after `scroll` the cursor line is in `[row_offset, row_offset + rows)` and the cursor column
is in `[col_offset, col_offset + cols)`; `scroll` changes nothing but the two offsets. -/
theorem scroll_viewport_inv (APP : config) (hrows : 1 ≤ APP.rows) (hcols : 1 ≤ APP.cols) :
    viewport_inv (scroll APP) ∧ (scroll APP).c_x = APP.c_x ∧ (scroll APP).c_y = APP.c_y ∧
      (scroll APP).rows = APP.rows ∧ (scroll APP).cols = APP.cols ∧
      (scroll APP).row = APP.row := by
  unfold viewport_inv scroll
  simp only
  split_ifs <;> (try dsimp only at *) <;> refine ⟨⟨?_, ?_, ?_, ?_⟩, ?_, ?_, ?_, ?_, ?_⟩ <;>
    first | rfl | omega

theorem scroll_viewport_inv_witness :
    1 ≤ (mk_config [] 100 50).rows ∧ 1 ≤ (mk_config [] 100 50).cols ∧
      viewport_inv (scroll (mk_config [] 100 50)) ∧
      (scroll (mk_config [] 100 50)).row_offset = 27 ∧
      (scroll (mk_config [] 100 50)).col_offset = 21 :=
  ⟨by decide, by decide, (scroll_viewport_inv (mk_config [] 100 50) (by decide) (by decide)).1,
    by decide, by decide⟩

/-! ### Reading a row -/

theorem row_at_some (APP : config) (i : Int) (h0 : 0 ≤ i) (h1 : i < APP.n_rows) :
    ∃ r, row_at APP i = some r := by
  unfold row_at
  unfold config.n_rows at h1
  rw [if_pos h0]
  have hlt : i.toNat < APP.row.length := by omega
  exact ⟨APP.row[i.toNat], List.getElem?_eq_getElem hlt⟩

theorem row_at_none (APP : config) (i : Int) (h : APP.n_rows ≤ i) : row_at APP i = none := by
  unfold row_at
  unfold config.n_rows at h
  split
  · apply List.getElem?_eq_none
    omega
  · rfl

theorem row_len_of_row_at (APP : config) (i : Int) (r : arow) (h : row_at APP i = some r) :
    row_len APP i = r.size := by
  simp [row_len, h]

theorem row_len_past (APP : config) (i : Int) (h : APP.n_rows ≤ i) : row_len APP i = 0 := by
  simp [row_len, row_at_none APP i h]

theorem row_len_nonneg (APP : config) (i : Int) : 0 ≤ row_len APP i := by
  unfold row_len
  split
  · simp [arow.size]
  · exact le_refl 0

theorem row_len_congr (APP APP1 : config) (h : APP1.row = APP.row) (i : Int) :
    row_len APP1 i = row_len APP i := by
  simp [row_len, row_at, h]

/-! ### One call of `move_cursor` -/

/-- The final clamp of `move_cursor` on a state whose line is not negative: it returns, and the
only change is that the column becomes the smaller of the column and the size of the row on the
cursor line (`0` when that line has no row). -/
theorem move_cursor_clamp_spec (APP : config) (hy0 : 0 ≤ APP.c_y) :
    move_cursor_clamp APP = some { APP with c_x := min APP.c_x (row_len APP APP.c_y) } := by
  unfold move_cursor_clamp
  by_cases hge : APP.c_y ≥ APP.n_rows
  · rw [if_pos hge, row_len_past APP APP.c_y hge]
    by_cases hpos : APP.c_x > 0
    · rw [if_pos hpos, min_eq_right (le_of_lt hpos)]
    · rw [if_neg hpos, min_eq_left (not_lt.mp hpos)]
  · rw [if_neg hge]
    obtain ⟨r, hr⟩ := row_at_some APP APP.c_y hy0 (by omega)
    rw [hr, row_len_of_row_at APP APP.c_y r hr]
    by_cases hgt : APP.c_x > r.size
    · simp only [if_pos hgt, min_eq_right (le_of_lt hgt)]
    · simp only [if_neg hgt, min_eq_left (not_lt.mp hgt)]

/-- A state whose line is in `[0, n_rows]` and whose column is between `0` and the size of the
row on that line satisfies the cursor invariant. -/
theorem cursor_inv_of_bounds (APP : config) (hy0 : 0 ≤ APP.c_y) (hy1 : APP.c_y ≤ APP.n_rows)
    (hx0 : 0 ≤ APP.c_x) (hx1 : APP.c_x ≤ row_len APP APP.c_y) : cursor_inv APP := by
  refine ⟨hy0, hy1, fun _ => ⟨hx0, hx1⟩, fun h => ?_⟩
  have h0 := row_len_past APP APP.c_y (le_of_eq h.symm)
  omega

theorem cursor_inv_bounds (APP : config) (h : cursor_inv APP) :
    0 ≤ APP.c_y ∧ APP.c_y ≤ APP.n_rows ∧ 0 ≤ APP.c_x ∧ APP.c_x ≤ row_len APP APP.c_y := by
  obtain ⟨hy0, hy1, hlt, heq⟩ := h
  by_cases hc : APP.c_y < APP.n_rows
  · exact ⟨hy0, hy1, (hlt hc).1, (hlt hc).2⟩
  · have hx := heq (by omega)
    have h0 := row_len_nonneg APP APP.c_y
    exact ⟨hy0, hy1, by omega, by omega⟩

/-- The `switch` of `move_cursor` on a state satisfying the cursor invariant: it returns a state
with the same document, a line in `[0, n_rows]` and a column that is not negative. -/
theorem move_cursor_switch_spec (APP : config) (key : Int) (h : cursor_inv APP) :
    ∃ APP1, move_cursor_switch APP key = some APP1 ∧ APP1.row = APP.row ∧ 0 ≤ APP1.c_y ∧
      APP1.c_y ≤ APP1.n_rows ∧ 0 ≤ APP1.c_x := by
  obtain ⟨hy0, hy1, hx0, hx1⟩ := cursor_inv_bounds APP h
  unfold move_cursor_switch
  by_cases hL : key = ARROW_LEFT
  · rw [if_pos hL]
    by_cases hx : APP.c_x ≠ 0
    · rw [if_pos hx]
      exact ⟨_, rfl, rfl, hy0, hy1, by simp only; omega⟩
    · rw [if_neg hx]
      by_cases hy : APP.c_y > 0
      · rw [if_pos hy]
        obtain ⟨r, hr⟩ := row_at_some APP (APP.c_y - 1) (by omega) (by omega)
        rw [hr]
        refine ⟨_, rfl, rfl, by simp only; omega, ?_, by simp [arow.size]⟩
        simp only [config.n_rows] at hy1 ⊢
        omega
      · rw [if_neg hy]
        exact ⟨_, rfl, rfl, hy0, hy1, hx0⟩
  · rw [if_neg hL]
    by_cases hR : key = ARROW_RIGHT
    · rw [if_pos hR]
      by_cases hge : APP.c_y ≥ APP.n_rows
      · rw [if_pos hge]
        exact ⟨_, rfl, rfl, hy0, hy1, hx0⟩
      · rw [if_neg hge]
        obtain ⟨r, hr⟩ := row_at_some APP APP.c_y hy0 (by omega)
        rw [hr]
        simp only
        split_ifs
        · exact ⟨_, rfl, rfl, hy0, hy1, by simp only; omega⟩
        · refine ⟨_, rfl, rfl, by simp only; omega, ?_, by simp⟩
          simp only [config.n_rows] at hge ⊢
          omega
        · exact ⟨_, rfl, rfl, hy0, hy1, hx0⟩
    · rw [if_neg hR]
      by_cases hU : key = ARROW_UP
      · rw [if_pos hU]
        split_ifs
        · refine ⟨_, rfl, rfl, by simp only; omega, ?_, hx0⟩
          simp only [config.n_rows] at hy1 ⊢
          omega
        · exact ⟨_, rfl, rfl, hy0, hy1, hx0⟩
      · rw [if_neg hU]
        split_ifs
        · refine ⟨_, rfl, rfl, by simp only; omega, ?_, hx0⟩
          simp only [config.n_rows] at * 
          omega
        · exact ⟨_, rfl, rfl, hy0, hy1, hx0⟩
        · exact ⟨_, rfl, rfl, hy0, hy1, hx0⟩

/-- One call of `move_cursor`, with any key, on a state satisfying the cursor invariant returns
a state that satisfies it, over the same document. -/
theorem move_cursor_inv_step (APP : config) (key : Int) (h : cursor_inv APP) :
    ∃ APP1, move_cursor APP key = some APP1 ∧ cursor_inv APP1 ∧ APP1.row = APP.row := by
  obtain ⟨S, hS, hrow, hy0, hy1, hx0⟩ := move_cursor_switch_spec APP key h
  have hC := move_cursor_clamp_spec S hy0
  refine ⟨{ S with c_x := min S.c_x (row_len S S.c_y) }, by simp only [move_cursor, hS, hC], ?_,
    hrow⟩
  have h0 := row_len_nonneg S S.c_y
  apply cursor_inv_of_bounds
  · exact hy0
  · exact hy1
  · exact le_min hx0 h0
  · exact min_le_right _ _

/-- C2: from a state satisfying the cursor invariant, every finite sequence of `move_cursor`
calls (with `ARROW_LEFT`, `ARROW_RIGHT`, `ARROW_UP`, `ARROW_DOWN`) returns, and the state it
returns satisfies the cursor invariant again: `0 <= c_y <= n_rows`, `0 <= c_x <= row[c_y].size`
when `c_y < n_rows`, and `c_x = 0` when `c_y = n_rows`. The document is unchanged. -/
theorem move_cursor_seq_cursor_inv (APP : config) (keys : List Int) (hinv : cursor_inv APP)
    (hkeys : ∀ k ∈ keys, k = ARROW_LEFT ∨ k = ARROW_RIGHT ∨ k = ARROW_UP ∨ k = ARROW_DOWN) :
    ∃ APP1, move_cursor_seq APP keys = some APP1 ∧ cursor_inv APP1 ∧ APP1.row = APP.row := by
  induction keys generalizing APP with
  | nil => exact ⟨APP, rfl, hinv, rfl⟩
  | cons key keys ih =>
    obtain ⟨S, hS, hSinv, hSrow⟩ := move_cursor_inv_step APP key hinv
    obtain ⟨T, hT, hTinv, hTrow⟩ := ih S hSinv (fun k hk => hkeys k (List.mem_cons_of_mem key hk))
    exact ⟨T, by simp [move_cursor_seq, hS, hT], hTinv, hTrow.trans hSrow⟩

theorem move_cursor_seq_cursor_inv_witness :
    cursor_inv (mk_config [[97, 98], [99]] 2 0) ∧
      (∀ k ∈ [ARROW_RIGHT, ARROW_DOWN, ARROW_LEFT, ARROW_UP, ARROW_UP],
        k = ARROW_LEFT ∨ k = ARROW_RIGHT ∨ k = ARROW_UP ∨ k = ARROW_DOWN) ∧
      ∃ APP1, move_cursor_seq (mk_config [[97, 98], [99]] 2 0)
          [ARROW_RIGHT, ARROW_DOWN, ARROW_LEFT, ARROW_UP, ARROW_UP] = some APP1 ∧
        cursor_inv APP1 ∧ APP1.row = (mk_config [[97, 98], [99]] 2 0).row :=
  ⟨by decide, by decide, move_cursor_seq_cursor_inv (mk_config [[97, 98], [99]] 2 0)
    [ARROW_RIGHT, ARROW_DOWN, ARROW_LEFT, ARROW_UP, ARROW_UP] (by decide) (by decide)⟩

/-- C8: with the cursor at the end of a line `y < n_rows` (column `row[y].size`),
`move_cursor(ARROW_RIGHT)` returns the state with the cursor at column `0` of line `y + 1`, and
`move_cursor(ARROW_LEFT)` on that state returns the starting state, cursor at column
`row[y].size` of line `y`. -/
theorem move_cursor_wrap_round_trip (APP : config) (hy0 : 0 ≤ APP.c_y)
    (hy1 : APP.c_y < APP.n_rows) (hx : APP.c_x = row_len APP APP.c_y) :
    move_cursor APP ARROW_RIGHT = some { APP with c_y := APP.c_y + 1, c_x := 0 } ∧
      move_cursor { APP with c_y := APP.c_y + 1, c_x := 0 } ARROW_LEFT = some APP := by
  obtain ⟨r, hr⟩ := row_at_some APP APP.c_y hy0 hy1
  rw [row_len_of_row_at APP APP.c_y r hr] at hx
  have hr1 : row_at { APP with c_y := APP.c_y + 1, c_x := 0 } APP.c_y = some r := hr
  have hsize : 0 ≤ r.size := by simp [arow.size]
  constructor
  · have hsw : move_cursor_switch APP ARROW_RIGHT =
        some { APP with c_y := APP.c_y + 1, c_x := 0 } := by
      simp [move_cursor_switch, ARROW_RIGHT, ARROW_LEFT, hr, hx, not_le.mpr hy1]
    have hC := move_cursor_clamp_spec { APP with c_y := APP.c_y + 1, c_x := 0 }
      (by simp only; omega)
    have h0 := row_len_nonneg { APP with c_y := APP.c_y + 1, c_x := 0 } (APP.c_y + 1)
    simp only [min_eq_left h0] at hC
    simp only [move_cursor, hsw, hC]
  · have hsw : move_cursor_switch { APP with c_y := APP.c_y + 1, c_x := 0 } ARROW_LEFT =
        some APP := by
      have hpos : APP.c_y + 1 > 0 := by omega
      cases APP
      simp only at hx hpos hr1
      simp [move_cursor_switch, ARROW_LEFT, hpos, hr1, hx]
    have hcl : move_cursor_clamp APP = some APP := by
      simp [move_cursor_clamp, not_le.mpr hy1, hr, hx]
    simp [move_cursor, hsw, hcl]

theorem move_cursor_wrap_round_trip_witness :
    0 ≤ (mk_config [[97, 98], [99, 100]] 2 0).c_y ∧
      (mk_config [[97, 98], [99, 100]] 2 0).c_y < (mk_config [[97, 98], [99, 100]] 2 0).n_rows ∧
      (mk_config [[97, 98], [99, 100]] 2 0).c_x = row_len (mk_config [[97, 98], [99, 100]] 2 0) 0 ∧
      move_cursor (mk_config [[97, 98], [99, 100]] 2 0) ARROW_RIGHT =
        some (mk_config [[97, 98], [99, 100]] 0 1) ∧
      move_cursor (mk_config [[97, 98], [99, 100]] 0 1) ARROW_LEFT =
        some (mk_config [[97, 98], [99, 100]] 2 0) :=
  ⟨by decide, by decide, by decide,
    move_cursor_wrap_round_trip (mk_config [[97, 98], [99, 100]] 2 0) (by decide) (by decide)
      (by decide)⟩

theorem move_cursor_switch_up (APP : config) :
    move_cursor_switch APP ARROW_UP =
      if APP.c_y ≠ 0 then some { APP with c_y := APP.c_y - 1 } else some APP := rfl

theorem move_cursor_switch_down (APP : config) :
    move_cursor_switch APP ARROW_DOWN =
      if APP.c_y < APP.n_rows then some { APP with c_y := APP.c_y + 1 } else some APP := rfl

/-- The column after a vertical move onto line `y`: `0` when line `y` has no row
(`y = n_rows`), else the smaller of the old column and the size of row `y`. -/
theorem clamped_column (APP : config) (x y : Int) (hx : 0 ≤ x) :
    min x (row_len APP y) = if y = APP.n_rows then 0 else min x (row_len APP y) := by
  split
  · next h =>
    rw [row_len_past APP y (le_of_eq h.symm)]
    exact min_eq_right hx
  · rfl

/-- C9: on a state satisfying the cursor invariant, `move_cursor(ARROW_UP)` returns a state on
line `max(0, c_y - 1)` and `move_cursor(ARROW_DOWN)` a state on line `min(n_rows, c_y + 1)`;
in both the column is `0` when the new line is `n_rows` and else the smaller of the old column
and the size of the row on the new line. Nothing else changes. -/
theorem move_cursor_vertical (APP : config) (hinv : cursor_inv APP) :
    move_cursor APP ARROW_UP = some { APP with
        c_y := max 0 (APP.c_y - 1),
        c_x := if max 0 (APP.c_y - 1) = APP.n_rows then 0
          else min APP.c_x (row_len APP (max 0 (APP.c_y - 1))) } ∧
      move_cursor APP ARROW_DOWN = some { APP with
        c_y := min APP.n_rows (APP.c_y + 1),
        c_x := if min APP.n_rows (APP.c_y + 1) = APP.n_rows then 0
          else min APP.c_x (row_len APP (min APP.n_rows (APP.c_y + 1))) } := by
  obtain ⟨hy0, hy1, hx0, hx1⟩ := cursor_inv_bounds APP hinv
  constructor
  · have hsw : move_cursor_switch APP ARROW_UP = some { APP with c_y := max 0 (APP.c_y - 1) } := by
      by_cases h0 : APP.c_y = 0
      · have hmax : max 0 (APP.c_y - 1) = APP.c_y := by omega
        rw [hmax, move_cursor_switch_up, if_neg (not_not.mpr h0)]
      · have hmax : max 0 (APP.c_y - 1) = APP.c_y - 1 := by omega
        rw [hmax, move_cursor_switch_up, if_pos h0]
    have hC := move_cursor_clamp_spec { APP with c_y := max 0 (APP.c_y - 1) } (by simp)
    rw [← clamped_column APP APP.c_x _ hx0]
    simp only [move_cursor, hsw, hC]
    rfl
  · have hsw : move_cursor_switch APP ARROW_DOWN =
        some { APP with c_y := min APP.n_rows (APP.c_y + 1) } := by
      by_cases h0 : APP.c_y < APP.n_rows
      · have hmin : min APP.n_rows (APP.c_y + 1) = APP.c_y + 1 := by omega
        rw [hmin, move_cursor_switch_down, if_pos h0]
      · have hmin : min APP.n_rows (APP.c_y + 1) = APP.c_y := by omega
        rw [hmin, move_cursor_switch_down, if_neg h0]
    have hC := move_cursor_clamp_spec { APP with c_y := min APP.n_rows (APP.c_y + 1) }
      (by simp only; omega)
    rw [← clamped_column APP APP.c_x _ hx0]
    simp only [move_cursor, hsw, hC]
    rfl

theorem move_cursor_vertical_witness :
    cursor_inv (mk_config [[97, 98, 99], [100]] 3 0) ∧
      move_cursor (mk_config [[97, 98, 99], [100]] 3 0) ARROW_UP =
        some (mk_config [[97, 98, 99], [100]] 3 0) ∧
      move_cursor (mk_config [[97, 98, 99], [100]] 3 0) ARROW_DOWN =
        some (mk_config [[97, 98, 99], [100]] 1 1) :=
  ⟨by decide, move_cursor_vertical (mk_config [[97, 98, 99], [100]] 3 0) (by decide)⟩

/-! ### Row store -/

theorem foldl_copy (l acc : List Nat) :
    l.foldl (fun render ch => render ++ [ch]) acc = acc ++ l := by
  induction l generalizing acc with
  | nil => simp
  | cons b l ih => simp [ih]

/-- After `update_row` the render of a row is its content. -/
theorem update_row_eq (row : arow) : update_row row = { row with render := row.chars } := by
  simp [update_row, foldl_copy]

theorem memmove_cons (b : Nat) (buf : List Nat) (dst src n : Nat) :
    memmove (b :: buf) (dst + 1) (src + 1) n = b :: memmove buf dst src n := by
  have h : dst + 1 + n = dst + n + 1 := by omega
  simp [memmove, h]

/-- The buffer of `row_insert_char` after the `memmove` and the store of `c`, on a content that
is `p` before the column and `q` from the column on. -/
theorem insert_buffer (p q : List Nat) (c : Nat) :
    (((memmove (p ++ q ++ [0] ++ [0]) (p.length + 1) p.length (q.length + 1)).set
      p.length c).take (p.length + q.length + 1)) = p ++ [c] ++ q := by
  induction p with
  | nil =>
    have h1 : List.take (q.length + 1) (q ++ [0] ++ [0]) = q ++ [0] :=
      List.take_left' (by simp)
    have h2 : List.drop (0 + 1 + (q.length + 1)) (q ++ [0] ++ [0]) = [] :=
      List.drop_eq_nil_of_le (by simp; omega)
    have h3 : ∃ x, List.take (0 + 1) (q ++ [0] ++ [0]) = [x] := by
      cases q with
      | nil => exact ⟨0, rfl⟩
      | cons b q => exact ⟨b, rfl⟩
    obtain ⟨x, hx⟩ := h3
    have h4 : List.take q.length (q ++ [0]) = q := List.take_left' rfl
    simp only [memmove, List.nil_append, List.length_nil, List.drop_zero, h1, h2, hx,
      List.append_nil, List.cons_append, List.set_cons_zero, zero_add, List.take_succ_cons, h4]
  | cons b p ih =>
    have h : (b :: p).length + q.length + 1 = (p.length + q.length + 1) + 1 := by
      simp only [List.length_cons]; omega
    rw [h]
    simp only [List.length_cons, List.cons_append, memmove_cons, List.set_cons_succ,
      List.take_succ_cons]
    rw [ih]

theorem int_to_byte_of_byte (c : Nat) (hc : c < 256) : int_to_byte (c : Int) = c := by
  unfold int_to_byte
  omega

/-- The content after `row_insert_char(row, at, c)` for a column within the row. -/
theorem row_insert_char_inside (row : arow) (at_ : Int) (c : Int) (h0 : 0 ≤ at_)
    (h1 : at_ ≤ row.size) :
    row_insert_char row at_ c =
      mk_row (row.chars.take at_.toNat ++ [int_to_byte c] ++ row.chars.drop at_.toNat) := by
  have hcond : ¬ (at_ < 0 ∨ at_ > row.size) := by omega
  unfold row_insert_char
  simp only [if_neg hcond, update_row_eq, mk_row]
  unfold arow.size at h1 ⊢
  have hlen : (row.chars.take at_.toNat).length = at_.toNat := by
    rw [List.length_take]; omega
  have hq : ((row.chars.length : Int) - at_ + 1).toNat = (row.chars.drop at_.toNat).length + 1 := by
    rw [List.length_drop]; omega
  have hn : ((row.chars.length : Int) + 1).toNat =
      (row.chars.take at_.toNat).length + (row.chars.drop at_.toNat).length + 1 := by
    rw [hlen, List.length_drop]; omega
  have hbuf := insert_buffer (row.chars.take at_.toNat) (row.chars.drop at_.toNat) (int_to_byte c)
  rw [List.take_append_drop, hlen] at hbuf
  rw [hq, hn, hlen, hbuf]

/-- The content after `row_insert_char(row, at, c)` for a column outside the row: the column is
replaced by `row->size`. -/
theorem row_insert_char_outside (row : arow) (at_ : Int) (c : Int)
    (h : at_ < 0 ∨ at_ > row.size) :
    row_insert_char row at_ c = mk_row (row.chars ++ [int_to_byte c]) := by
  have hsize : (0 : Int) ≤ row.size := by simp [arow.size]
  have hin := row_insert_char_inside row row.size c hsize (le_refl _)
  have hsame : row_insert_char row at_ c = row_insert_char row row.size c := by
    have hcond : ¬ (row.size < 0 ∨ row.size > row.size) := by omega
    unfold row_insert_char
    simp only [if_pos h, if_neg hcond]
  rw [hsame, hin]
  simp [arow.size]

/-- C5: `row_insert_char(row, at, c)` with the byte `c` on a row of content `s` gives the
content `(first at bytes of s) ++ [c] ++ (the other bytes of s)` when `0 <= at <= |s|`, and
`s ++ [c]` when `at > |s|` (and when `at < 0`): the column is replaced by `|s|`. The new size is
`|s| + 1`, and the render is the new content. -/
theorem row_insert_char_content (row : arow) (at_ : Int) (c : Nat) (hc : c < 256) :
    (0 ≤ at_ → at_ ≤ row.size →
        (row_insert_char row at_ c).chars =
          row.chars.take at_.toNat ++ [c] ++ row.chars.drop at_.toNat) ∧
      (row.size < at_ → (row_insert_char row at_ c).chars = row.chars ++ [c]) ∧
      (at_ < 0 → (row_insert_char row at_ c).chars = row.chars ++ [c]) ∧
      (row_insert_char row at_ c).size = row.size + 1 ∧
      (row_insert_char row at_ c).render = (row_insert_char row at_ c).chars := by
  have hb := int_to_byte_of_byte c hc
  refine ⟨fun h0 h1 => ?_, fun h => ?_, fun h => ?_, ?_, ?_⟩
  · rw [row_insert_char_inside row at_ c h0 h1, hb]
    rfl
  · rw [row_insert_char_outside row at_ c (Or.inr h), hb]
    rfl
  · rw [row_insert_char_outside row at_ c (Or.inl h), hb]
    rfl
  · by_cases h : at_ < 0 ∨ at_ > row.size
    · rw [row_insert_char_outside row at_ c h]
      simp [mk_row, arow.size]
    · rw [row_insert_char_inside row at_ c (by omega) (by omega)]
      unfold arow.size at h ⊢
      simp only [mk_row, List.length_append, List.length_take, List.length_drop,
        List.length_singleton]
      omega
  · by_cases h : at_ < 0 ∨ at_ > row.size
    · rw [row_insert_char_outside row at_ c h]
      rfl
    · rw [row_insert_char_inside row at_ c (by omega) (by omega)]
      rfl

theorem row_insert_char_content_witness :
    120 < 256 ∧ (row_insert_char (mk_row [97, 98, 99]) 1 (120 : Nat)).chars = [97, 120, 98, 99] ∧
      (row_insert_char (mk_row [97, 98, 99]) 7 (120 : Nat)).chars = [97, 98, 99, 120] :=
  ⟨by decide,
    (row_insert_char_content (mk_row [97, 98, 99]) 1 120 (by decide)).1 (by decide) (by decide),
    (row_insert_char_content (mk_row [97, 98, 99]) 7 120 (by decide)).2.1 (by decide)⟩

theorem set_last (l : List arow) (a b : arow) : (l ++ [a]).set l.length b = l ++ [b] := by
  induction l with
  | nil => rfl
  | cons x l ih => simp [ih]

theorem row_at_append_row (APP : config) (s : List Nat) (len : Nat) (h : APP.c_y = APP.n_rows) :
    row_at (append_row APP s len) APP.c_y = some (mk_row (s.take len)) := by
  unfold config.n_rows at h
  have h0 : (0 : Int) ≤ APP.c_y := by omega
  have hn : APP.c_y.toNat = APP.row.length := by omega
  simp [row_at, append_row, update_row_eq, mk_row, h0, hn]

/-- C4: `insert_char(x)` with the cursor on the line one past the last row (`c_y = n_rows`)
and a character `x` returns a state whose document is the previous rows, unchanged and in the
same order, followed by one new row whose content is the single byte `x`; the number of rows
grows by exactly `1` (and the cursor moves one column right). -/
theorem insert_char_past_last_row (APP : config) (x : Nat) (hx : x < 256)
    (hy : APP.c_y = APP.n_rows) :
    insert_char APP x =
        some { APP with row := APP.row ++ [mk_row [x]], c_x := APP.c_x + 1 } ∧
      ({ APP with row := APP.row ++ [mk_row [x]], c_x := APP.c_x + 1 } : config).n_rows =
        APP.n_rows + 1 := by
  constructor
  · have hrow := row_at_append_row APP [] 0 hy
    have hins : row_insert_char (mk_row []) APP.c_x x = mk_row [x] := by
      by_cases h : APP.c_x < 0 ∨ APP.c_x > (mk_row []).size
      · rw [row_insert_char_outside _ _ _ h, int_to_byte_of_byte x hx]
        rfl
      · have h0 : APP.c_x = 0 := by
          simp only [mk_row, arow.size, List.length_nil] at h
          omega
        rw [row_insert_char_inside _ _ _ (by omega) (by simp [h0, arow.size]),
          int_to_byte_of_byte x hx, h0]
        rfl
    have hn : APP.c_y.toNat = APP.row.length := by
      unfold config.n_rows at hy
      omega
    unfold insert_char
    simp only [if_pos hy]
    have hrow1 : row_at (append_row APP [] 0) (append_row APP [] 0).c_y = some (mk_row []) := hrow
    rw [hrow1]
    have hins1 : row_insert_char (mk_row []) (append_row APP [] 0).c_x x = mk_row [x] := hins
    simp only [hins1]
    simp only [append_row, update_row_eq, hn, List.take_nil]
    rw [set_last]
  · simp [config.n_rows]

theorem insert_char_past_last_row_witness :
    120 < 256 ∧ (mk_config [[97], [98]] 0 2).c_y = (mk_config [[97], [98]] 0 2).n_rows ∧
      insert_char (mk_config [[97], [98]] 0 2) (120 : Nat) =
        some (mk_config [[97], [98], [120]] 1 2) :=
  ⟨by decide, by decide,
    (insert_char_past_last_row (mk_config [[97], [98]] 0 2) 120 (by decide) (by decide)).1⟩

/-! ### Persistence -/

theorem foldl_totlen (l : List arow) (acc : Int) :
    l.foldl (fun totlen r => totlen + (r.size + 1)) acc =
      acc + (l.map (fun r => r.size + 1)).sum := by
  induction l generalizing acc with
  | nil => simp
  | cons r l ih => simp [ih, add_assoc]

theorem foldl_buf (l : List arow) (acc : List Nat) :
    l.foldl (fun buf r => buf ++ r.chars ++ [10]) acc =
      acc ++ (l.map (fun r => r.chars ++ [10])).flatten := by
  induction l generalizing acc with
  | nil => simp
  | cons r l ih =>
    rw [List.foldl_cons, ih]
    simp

theorem length_lines (l : List arow) :
    (((l.map (fun r => r.chars ++ [10])).flatten.length : Nat) : Int) =
      (l.map (fun r => r.size + 1)).sum := by
  induction l with
  | nil => simp
  | cons r l ih =>
    simp only [List.map_cons, List.flatten_cons, List.length_append, List.sum_cons, Nat.cast_add,
      ih, arow.size]
    simp

theorem rows_to_string_buf (APP : config) :
    (rows_to_string APP).1 = (APP.row.map (fun r => r.chars ++ [10])).flatten := by
  simp only [rows_to_string, foldl_buf, List.nil_append]

theorem rows_to_string_len (APP : config) :
    (rows_to_string APP).2 = (APP.row.map (fun r => r.size + 1)).sum := by
  simp [rows_to_string, foldl_totlen]

/-- C6: the buffer `rows_to_string` returns is the concatenation, in row order, of every row's
content followed by one `'\n'` (also after the last row), and the length it reports is the sum
over the rows of `size + 1`, which is the length of that buffer. The rows `"a"`, `"bb"` give
`"a\nbb\n"` and `5`; the empty document gives the empty buffer and `0`. -/
theorem rows_to_string_spec (APP : config) :
    (rows_to_string APP).1 = (APP.row.map (fun r => r.chars ++ [10])).flatten ∧
      (rows_to_string APP).2 = (APP.row.map (fun r => r.size + 1)).sum ∧
      (rows_to_string APP).2 = (rows_to_string APP).1.length ∧
      rows_to_string (mk_config [[97], [98, 98]] 0 0) = ([97, 10, 98, 98, 10], 5) ∧
      rows_to_string (mk_config [] 0 0) = ([], 0) := by
  have h1 := rows_to_string_buf APP
  have h2 := rows_to_string_len APP
  refine ⟨h1, h2, ?_, by decide, by decide⟩
  rw [h1, h2, length_lines]

/-! ### Key decoder -/

/-- C10: on an input that begins with the bytes ESC `[` `L`, `read_key` returns one key and
leaves unread exactly what follows those three bytes: arrow-up for `L = 'A'`, arrow-down for
`'B'`, arrow-right for `'C'`, arrow-left for `'D'`, home for `'H'`, end for `'F'`; and on
ESC `O` `H` it returns home, on ESC `O` `F` end. The key returned is a named key (1000 and
up), not a character. -/
theorem read_key_letter_table (rest : List rd) :
    read_key (rd.byte 27 :: rd.byte 91 :: rd.byte 65 :: rest) = key_result.key ARROW_UP rest ∧
      read_key (rd.byte 27 :: rd.byte 91 :: rd.byte 66 :: rest) =
        key_result.key ARROW_DOWN rest ∧
      read_key (rd.byte 27 :: rd.byte 91 :: rd.byte 67 :: rest) =
        key_result.key ARROW_RIGHT rest ∧
      read_key (rd.byte 27 :: rd.byte 91 :: rd.byte 68 :: rest) =
        key_result.key ARROW_LEFT rest ∧
      read_key (rd.byte 27 :: rd.byte 91 :: rd.byte 72 :: rest) = key_result.key HOME_KEY rest ∧
      read_key (rd.byte 27 :: rd.byte 91 :: rd.byte 70 :: rest) = key_result.key END_KEY rest ∧
      read_key (rd.byte 27 :: rd.byte 79 :: rd.byte 72 :: rest) = key_result.key HOME_KEY rest ∧
      read_key (rd.byte 27 :: rd.byte 79 :: rd.byte 70 :: rest) = key_result.key END_KEY rest ∧
      ARROW_UP = 1002 ∧ ARROW_DOWN = 1003 ∧ ARROW_RIGHT = 1001 ∧ ARROW_LEFT = 1000 ∧
      HOME_KEY = 1005 ∧ END_KEY = 1006 :=
  ⟨rfl, rfl, rfl, rfl, rfl, rfl, rfl, rfl, rfl, rfl, rfl, rfl, rfl, rfl⟩

/-! ### The loader -/

theorem getline_line (l rest : List Nat) (h : 10 ∉ l) :
    getline (l ++ 10 :: rest) = some (l ++ [10], rest) := by
  induction l with
  | nil => simp [getline]
  | cons b l ih =>
    have hb : b ≠ 10 := fun hb => h (by simp [hb])
    have hl : 10 ∉ l := fun hl => h (List.mem_cons_of_mem b hl)
    simp [getline, hb, ih hl]

theorem getline_last (b : Nat) (l : List Nat) (h : 10 ∉ b :: l) :
    getline (b :: l) = some (b :: l, []) := by
  induction l generalizing b with
  | nil =>
    have hb : b ≠ 10 := fun hb => h (by simp [hb])
    simp [getline, hb]
  | cons c l ih =>
    have hb : b ≠ 10 := fun hb => h (by simp [hb])
    have hl : 10 ∉ c :: l := fun hl => h (List.mem_cons_of_mem b hl)
    have hrec := ih c hl
    simp only [getline, if_neg hb] at hrec ⊢
    rw [hrec]

theorem strip_eol_le (line : List Nat) (n : Nat) : strip_eol line n ≤ n := by
  induction n with
  | zero => simp [strip_eol]
  | succ n ih =>
    unfold strip_eol
    split
    · omega
    · exact le_refl _

theorem strip_eol_append (l m : List Nat) (n : Nat) (h : n ≤ l.length) :
    strip_eol (l ++ m) n = strip_eol l n := by
  induction n with
  | zero => simp [strip_eol]
  | succ n ih =>
    have hn : n < l.length := by omega
    unfold strip_eol
    rw [List.get?_eq_getElem?, List.get?_eq_getElem?, List.getElem?_append_left hn, ih (by omega)]

theorem strip_eol_concat (l : List Nat) (b : Nat) :
    strip_eol (l ++ [b]) (l.length + 1) =
      if b = 10 ∨ b = 13 then strip_eol l l.length else l.length + 1 := by
  rw [strip_eol, List.get?_eq_getElem?, List.getElem?_concat_length,
    strip_eol_append l [b] l.length (le_refl _)]
  simp

/-- What the loader keeps of a line: the line without its trailing `'\n'` and `'\r'` bytes. -/
theorem take_strip_eol (line : List Nat) :
    line.take (strip_eol line line.length) =
      line.rdropWhile (fun b => decide (b = 10 ∨ b = 13)) := by
  induction line using List.reverseRecOn with
  | nil => simp [strip_eol]
  | append_singleton l b ih =>
    rw [List.length_append, List.length_singleton, strip_eol_concat, List.rdropWhile_concat]
    by_cases hb : b = 10 ∨ b = 13
    · have hp : (fun b => decide (b = 10 ∨ b = 13)) b = true := decide_eq_true hb
      rw [if_pos hb, if_pos hp, ← ih]
      exact List.take_append_of_le_length (strip_eol_le l l.length)
    · have hp : ¬ (fun b => decide (b = 10 ∨ b = 13)) b = true := fun hp => hb (of_decide_eq_true hp)
      rw [if_neg hb, if_neg hp]
      exact List.take_of_length_le (by simp)

theorem rdropWhile_eol_eq_strip_cr (l : List Nat) (h : 10 ∉ l) :
    l.rdropWhile (fun b => decide (b = 10 ∨ b = 13)) = strip_cr l := by
  unfold strip_cr
  induction l using List.reverseRecOn with
  | nil => simp
  | append_singleton l b ih =>
    have hb : b ≠ 10 := fun hb => h (by simp [hb])
    have hl : 10 ∉ l := fun hl => h (List.mem_append_left [b] hl)
    rw [List.rdropWhile_concat, List.rdropWhile_concat, ih hl]
    simp [hb]

theorem strip_cr_of_getLast (l : List Nat) (h : l.getLast? ≠ some 13) : strip_cr l = l := by
  unfold strip_cr
  induction l using List.reverseRecOn with
  | nil => simp
  | append_singleton l b _ =>
    rw [List.getLast?_concat] at h
    have hb : b ≠ 13 := fun hb => h (by rw [hb])
    exact List.rdropWhile_concat_neg _ _ _ (by simpa using hb)

theorem append_row_terminated (APP : config) (l : List Nat) (h : 10 ∉ l) :
    append_row APP (l ++ [10]) (strip_eol (l ++ [10]) (l ++ [10]).length) =
      { APP with row := APP.row ++ [mk_row (strip_cr l)] } := by
  unfold append_row
  rw [update_row_eq, take_strip_eol, List.rdropWhile_concat_pos _ _ _ (by simp),
    rdropWhile_eol_eq_strip_cr l h]
  rfl

theorem append_row_unterminated (APP : config) (l : List Nat) (h : 10 ∉ l) :
    append_row APP l (strip_eol l l.length) =
      { APP with row := APP.row ++ [mk_row (strip_cr l)] } := by
  unfold append_row
  rw [update_row_eq, take_strip_eol, rdropWhile_eol_eq_strip_cr l h]
  rfl

/-- The loop of `oopen` on a stream made of the lines `ls`, each followed by `'\n'`, and of the
bytes `last` after the final `'\n'`: with enough fuel it returns, and it has appended one row for
every line of `ls` and one for `last` when `last` is not empty. -/
theorem oopen_loop_lines (ls : List (List Nat)) (last : List Nat) (hls : ∀ l ∈ ls, 10 ∉ l)
    (hlast : 10 ∉ last) (fuel : Nat) (APP : config)
    (hfuel : ls.length + last.length + 1 ≤ fuel) :
    oopen_loop fuel APP ((ls.map (fun l => l ++ [10])).flatten ++ last) =
      some { APP with
        row := APP.row ++
          (ls ++ if last = [] then [] else [last]).map (fun l => mk_row (strip_cr l)) } := by
  induction ls generalizing fuel APP with
  | nil =>
    obtain ⟨fuel, rfl⟩ : ∃ k, fuel = k + 1 := ⟨fuel - 1, by omega⟩
    cases last with
    | nil => simp [oopen_loop, getline]
    | cons b t =>
      obtain ⟨fuel, rfl⟩ : ∃ k, fuel = k + 1 := ⟨fuel - 1, by simp at hfuel; omega⟩
      simp only [List.map_nil, List.flatten_nil, List.nil_append]
      rw [oopen_loop, getline_last b t hlast]
      simp only
      rw [append_row_unterminated APP (b :: t) hlast, oopen_loop, getline]
      simp
  | cons l ls ih =>
    obtain ⟨fuel, rfl⟩ : ∃ k, fuel = k + 1 := ⟨fuel - 1, by omega⟩
    have hl : 10 ∉ l := hls l (List.mem_cons_self l ls)
    have hrest : ∀ l1 ∈ ls, 10 ∉ l1 := fun l1 h1 => hls l1 (List.mem_cons_of_mem l h1)
    have hstream : ((l :: ls).map (fun l => l ++ [10])).flatten ++ last =
        l ++ 10 :: ((ls.map (fun l => l ++ [10])).flatten ++ last) := by simp
    rw [hstream, oopen_loop, getline_line l _ hl]
    simp only
    rw [append_row_terminated APP l hl, ih hrest fuel _ (by simp at hfuel; omega)]
    simp

theorem length_le_flatten (ls : List (List Nat)) :
    ls.length ≤ ((ls.map (fun l => l ++ [10])).flatten).length := by
  induction ls with
  | nil => simp
  | cons l ls ih =>
    simp only [List.map_cons, List.flatten_cons, List.length_append, List.length_cons,
      List.length_nil]
    omega

/-- `oopen` on a stream made of the lines `ls`, each followed by `'\n'`, and of the bytes `last`
after the final `'\n'`. -/
theorem oopen_lines (APP : config) (filename : List Nat) (ls : List (List Nat))
    (last : List Nat) (hls : ∀ l ∈ ls, 10 ∉ l) (hlast : 10 ∉ last) :
    oopen APP filename ((ls.map (fun l => l ++ [10])).flatten ++ last) =
      some { APP with
        filename := some filename,
        row := APP.row ++
          (ls ++ if last = [] then [] else [last]).map (fun l => mk_row (strip_cr l)) } := by
  unfold oopen
  rw [oopen_loop_lines ls last hls hlast]
  have h := length_le_flatten ls
  rw [List.length_append]
  omega

/-- Every byte stream is a sequence of lines without `'\n'`, each followed by `'\n'`, and a
last part without `'\n'`. -/
theorem exists_lines (fp : List Nat) :
    ∃ (ls : List (List Nat)) (last : List Nat), (∀ l ∈ ls, 10 ∉ l) ∧ 10 ∉ last ∧
      fp = (ls.map (fun l => l ++ [10])).flatten ++ last := by
  induction fp with
  | nil => exact ⟨[], [], by simp, by simp, by simp⟩
  | cons b fp ih =>
    obtain ⟨ls, last, hls, hlast, hfp⟩ := ih
    by_cases hb : b = 10
    · refine ⟨[] :: ls, last, ?_, hlast, ?_⟩
      · intro l hl
        rcases List.mem_cons.mp hl with h | h
        · simp [h]
        · exact hls l h
      · simp [hb, hfp]
    · cases ls with
      | nil =>
        refine ⟨[], b :: last, by simp, ?_, by simp [hfp]⟩
        intro h
        rcases List.mem_cons.mp h with h | h
        · exact hb h.symm
        · exact hlast h
      | cons l ls =>
        refine ⟨(b :: l) :: ls, last, ?_, hlast, by simp [hfp]⟩
        intro l1 hl1
        rcases List.mem_cons.mp hl1 with h | h
        · rw [h]
          intro hmem
          rcases List.mem_cons.mp hmem with h2 | h2
          · exact hb h2.symm
          · exact hls l (List.mem_cons_self l ls) h2
        · exact hls l1 (List.mem_cons_of_mem l h)

/-- C7, as stated, fails: the stream `"a\rb\n"` does not load as the two rows `"a"` and `"b"`; a
lone `'\r'` is no line boundary, and the loader appends the single row `"a\rb"`. -/
theorem oopen_lone_cr_counterexample :
    (oopen (init 24 80) [102] [97, 13, 98, 10]).map contents = some [[97, 13, 98]] ∧
      (oopen (init 24 80) [102] [97, 13, 98, 10]).map contents ≠ some [[97], [98]] := by
  decide

/-- C7, amended: every byte stream is a sequence of lines that hold no `'\n'`, each followed
by `'\n'`, and a last part without `'\n'`; `oopen` returns on it, and it has appended, in the
original order, one row per line (and one for the last part when that is not empty), each
holding the bytes of the line without its trailing `'\r'` bytes. Only `'\n'` ends a line: a
`'\r'` inside a line stays in the row (`"a\rb\n"` loads as the row `"a\rb"`, and `"a\r\nb"` as
the rows `"a"` and `"b"`). -/
theorem oopen_splits_at_newline (APP : config) (filename fp : List Nat) :
    (∃ (ls : List (List Nat)) (last : List Nat), (∀ l ∈ ls, 10 ∉ l) ∧ 10 ∉ last ∧
        fp = (ls.map (fun l => l ++ [10])).flatten ++ last ∧
        oopen APP filename fp =
          some { APP with
            filename := some filename,
            row := APP.row ++
              (ls ++ if last = [] then [] else [last]).map (fun l => mk_row (strip_cr l)) }) ∧
      (oopen (init 24 80) [102] [97, 13, 98, 10]).map contents = some [[97, 13, 98]] ∧
      (oopen (init 24 80) [102] [97, 13, 10, 98]).map contents = some [[97], [98]] := by
  refine ⟨?_, by decide, by decide⟩
  obtain ⟨ls, last, hls, hlast, hfp⟩ := exists_lines fp
  exact ⟨ls, last, hls, hlast, hfp, by rw [hfp]; exact oopen_lines APP filename ls last hls hlast⟩

/-- C1, as stated, fails: the document with the single row `"a\r"` holds no `'\n'`, and
loading what `rows_to_string` returns for it gives the row `"a"`. -/
theorem round_trip_counterexample :
    (∀ r ∈ (mk_config [[97, 13]] 0 0).row, 10 ∉ r.chars) ∧
      (oopen (init 24 80) [102] (rows_to_string (mk_config [[97, 13]] 0 0)).1).map contents =
        some [[97]] ∧
      (oopen (init 24 80) [102] (rows_to_string (mk_config [[97, 13]] 0 0)).1).map contents ≠
        some (contents (mk_config [[97, 13]] 0 0)) := by
  decide

theorem map_strip_cr (l : List (List Nat)) (h : ∀ s ∈ l, s.getLast? ≠ some 13) :
    l.map strip_cr = l := by
  induction l with
  | nil => rfl
  | cons s l ih =>
    rw [List.map_cons, strip_cr_of_getLast s (h s (List.mem_cons_self s l)),
      ih (fun t ht => h t (List.mem_cons_of_mem s ht))]

/-- C1, amended: for every document whose rows hold no `'\n'` byte and do not end with a
`'\r'` byte, loading the bytes `rows_to_string` returns with `oopen` into an empty document
returns a document with the same number of rows and the same content bytes in every row, in
the same order. -/
theorem load_serialize_round_trip (APP E : config) (filename : List Nat) (hE : E.row = [])
    (hnl : ∀ r ∈ APP.row, 10 ∉ r.chars) (hcr : ∀ r ∈ APP.row, r.chars.getLast? ≠ some 13) :
    ∃ L, oopen E filename (rows_to_string APP).1 = some L ∧ contents L = contents APP ∧
      L.n_rows = APP.n_rows ∧ L.row = (contents APP).map mk_row := by
  have hbuf : (rows_to_string APP).1 =
      ((contents APP).map (fun l => l ++ [10])).flatten ++ [] := by
    rw [rows_to_string_buf, contents, List.map_map, List.append_nil]
    rfl
  have hls : ∀ l ∈ contents APP, 10 ∉ l := by
    intro l hl
    obtain ⟨r, hr, rfl⟩ := List.mem_map.mp hl
    exact hnl r hr
  have hlast : ∀ l ∈ contents APP, l.getLast? ≠ some 13 := by
    intro l hl
    obtain ⟨r, hr, rfl⟩ := List.mem_map.mp hl
    exact hcr r hr
  have hopen := oopen_lines E filename (contents APP) [] hls (by simp)
  rw [← hbuf] at hopen
  have hrows : ((contents APP ++ if ([] : List Nat) = [] then [] else [[]]).map
      (fun l => mk_row (strip_cr l))) = (contents APP).map mk_row := by
    have hcomp : (fun l => mk_row (strip_cr l)) = mk_row ∘ strip_cr := rfl
    rw [if_pos rfl, List.append_nil, hcomp, ← List.map_map, map_strip_cr _ hlast]
  rw [hrows, hE, List.nil_append] at hopen
  refine ⟨_, hopen, ?_, ?_, rfl⟩
  · simp [contents, mk_row, Function.comp_def]
  · simp [config.n_rows, contents]

theorem load_serialize_round_trip_witness :
    (init 24 80).row = [] ∧
      (∀ r ∈ (mk_config [[97], [], [98, 13, 98]] 0 0).row, 10 ∉ r.chars) ∧
      (∀ r ∈ (mk_config [[97], [], [98, 13, 98]] 0 0).row, r.chars.getLast? ≠ some 13) ∧
      ∃ L, oopen (init 24 80) [102] (rows_to_string (mk_config [[97], [], [98, 13, 98]] 0 0)).1 =
          some L ∧
        contents L = contents (mk_config [[97], [], [98, 13, 98]] 0 0) ∧
        L.n_rows = (mk_config [[97], [], [98, 13, 98]] 0 0).n_rows ∧
        L.row = (contents (mk_config [[97], [], [98, 13, 98]] 0 0)).map mk_row :=
  ⟨by decide, by decide, by decide,
    load_serialize_round_trip (mk_config [[97], [], [98, 13, 98]] 0 0) (init 24 80) [102]
      (by decide) (by decide) (by decide)⟩

/-! ### Key decoder: digits and totality -/

/-- C11: on an input that begins with ESC `[` `d` `b`, `d` a decimal digit, `read_key` leaves
unread exactly what follows those four bytes, and with `b = '~'` it returns home for `d` in
`{1, 7}`, delete for `3`, end for `{4, 8}`, page-up for `5`, page-down for `6`; for every other
digit with `'~'`, and for every digit with another `b`, it returns the bare ESC (27). -/
theorem read_key_digit_table (d b : Nat) (rest : List rd) (hd : 48 ≤ d ∧ d ≤ 57) :
    read_key (rd.byte 27 :: rd.byte 91 :: rd.byte d :: rd.byte b :: rest) =
      key_result.key (digit_table d b) rest := by
  obtain ⟨h1, h2⟩ := hd
  by_cases hb : b = 126
  · subst hb
    interval_cases d <;> rfl
  · interval_cases d <;> simp [read_key, read_escape, read_seq, digit_table, hb]

theorem read_key_digit_table_witness :
    (48 ≤ 53 ∧ 53 ≤ 57) ∧
      read_key [rd.byte 27, rd.byte 91, rd.byte 53, rd.byte 126, rd.byte 97] =
        key_result.key PAGE_UP [rd.byte 97] :=
  ⟨by decide, read_key_digit_table 53 126 [rd.byte 97] (by decide)⟩

theorem read_escape_table (rest : List rd) :
    (in_key_table rest = true ∧ 1000 ≤ (read_escape rest).1 ∧ (read_escape rest).1 ≤ 1008) ∨
      (in_key_table rest = false ∧ (read_escape rest).1 = 27) := by
  rcases rest with _ | ⟨x, tl⟩
  · right; simp [in_key_table, read_escape, read_seq]
  · cases x with
    | zero => right; simp [in_key_table, read_escape, read_seq]
    | eagain => right; simp [in_key_table, read_escape, read_seq]
    | fail => right; simp [in_key_table, read_escape, read_seq]
    | byte seq0 =>
      rcases tl with _ | ⟨y, tl⟩
      · right; simp [in_key_table, read_escape, read_seq]
      · cases y with
        | zero => right; simp [in_key_table, read_escape, read_seq]
        | eagain => right; simp [in_key_table, read_escape, read_seq]
        | fail => right; simp [in_key_table, read_escape, read_seq]
        | byte seq1 =>
          by_cases h0 : seq0 = 91
          · subst h0
            by_cases hd : 48 ≤ seq1 ∧ seq1 ≤ 57
            · rcases tl with _ | ⟨z, tl⟩
              · right; simp [in_key_table, read_escape, read_seq, hd]
              · cases z with
                | zero => right; simp [in_key_table, read_escape, read_seq, hd]
                | eagain => right; simp [in_key_table, read_escape, read_seq, hd]
                | fail => right; simp [in_key_table, read_escape, read_seq, hd]
                | byte seq2 =>
                  by_cases h2 : seq2 = 126
                  · subst h2
                    obtain ⟨hlo, hhi⟩ := hd
                    interval_cases seq1 <;>
                      simp [in_key_table, read_escape, read_seq, HOME_KEY, DEL_KEY, END_KEY,
                        PAGE_UP, PAGE_DOWN]
                  · right; simp [in_key_table, read_escape, read_seq, hd, h2]
            · by_cases hl : seq1 ∈ [65, 66, 67, 68, 72, 70]
              · simp only [List.mem_cons, List.mem_singleton, List.not_mem_nil, or_false] at hl
                rcases hl with rfl | rfl | rfl | rfl | rfl | rfl <;>
                  simp [in_key_table, read_escape, read_seq, HOME_KEY, END_KEY, ARROW_UP,
                    ARROW_DOWN, ARROW_LEFT, ARROW_RIGHT]
              · right
                have hl1 := hl
                simp only [List.mem_cons, List.mem_singleton, List.not_mem_nil, or_false,
                  not_or] at hl1
                obtain ⟨hA, hB, hC, hD, hH, hF⟩ := hl1
                simp [in_key_table, read_escape, read_seq, hd, hA, hB, hC, hD, hH, hF]
          · by_cases h1 : seq0 = 79
            · subst h1
              by_cases hl : seq1 ∈ [72, 70]
              · simp only [List.mem_cons, List.mem_singleton, List.not_mem_nil, or_false] at hl
                rcases hl with rfl | rfl <;>
                  simp [in_key_table, read_escape, read_seq, HOME_KEY, END_KEY]
              · right
                have hl1 := hl
                simp only [List.mem_cons, List.mem_singleton, List.not_mem_nil, or_false,
                  not_or] at hl1
                obtain ⟨hH, hF⟩ := hl1
                simp [in_key_table, read_escape, read_seq, hH, hF]
            · right; simp [in_key_table, read_escape, read_seq, h0, h1]

/-- C12: on an input whose first byte is ESC, `read_key` returns a key (it neither calls `die`
nor waits); the key is the bare ESC (27) whenever the reads that follow match no entry of the
tables, be it that the input ends or that a read gives no byte before the sequence is complete,
and a named key (1000 to 1008) when they match one. ESC alone at the end of the input gives the
bare ESC, and so do ESC and one more byte, and ESC `[` and a digit. -/
theorem read_key_escape_total (rest : List rd) :
    (∃ c unread, read_key (rd.byte 27 :: rest) = key_result.key c unread ∧
        ((in_key_table rest = true ∧ 1000 ≤ c ∧ c ≤ 1008) ∨
          (in_key_table rest = false ∧ c = 27))) ∧
      read_key [rd.byte 27] = key_result.key 27 [] ∧
      read_key [rd.byte 27, rd.zero, rd.byte 91, rd.byte 65] =
        key_result.key 27 [rd.byte 91, rd.byte 65] ∧
      read_key [rd.byte 27, rd.byte 91] = key_result.key 27 [] ∧
      read_key [rd.byte 27, rd.byte 91, rd.byte 53] = key_result.key 27 [] ∧
      read_key [rd.byte 27, rd.byte 91, rd.byte 53, rd.fail] = key_result.key 27 [] ∧
      read_key [rd.byte 27, rd.byte 91, rd.byte 90, rd.byte 97] =
        key_result.key 27 [rd.byte 97] ∧
      read_key [rd.byte 27, rd.byte 120, rd.byte 65, rd.byte 97] =
        key_result.key 27 [rd.byte 97] := by
  refine ⟨⟨(read_escape rest).1, (read_escape rest).2, ?_, read_escape_table rest⟩, rfl, rfl,
    rfl, rfl, rfl, rfl, rfl⟩
  simp [read_key]

/-! ### Minimal scroll -/

/-- The line offset after `scroll`, with at least one visible row. -/
theorem scroll_row_offset (APP : config) (hrows : 1 ≤ APP.rows) :
    (scroll APP).row_offset =
      if APP.c_y < APP.row_offset then APP.c_y
      else if APP.c_y ≥ APP.row_offset + APP.rows then APP.c_y - APP.rows + 1
      else APP.row_offset := by
  unfold scroll
  simp only
  split_ifs <;> (try dsimp only at *) <;> first | rfl | omega

/-- The column offset after `scroll`, with at least one visible column. -/
theorem scroll_col_offset (APP : config) (hcols : 1 ≤ APP.cols) :
    (scroll APP).col_offset =
      if APP.c_x < APP.col_offset then APP.c_x
      else if APP.c_x ≥ APP.col_offset + APP.cols then APP.c_x - APP.cols + 1
      else APP.col_offset := by
  unfold scroll
  simp only
  split_ifs <;> (try dsimp only at *) <;> first | rfl | omega

/-- `scroll` changes the two offsets only. -/
theorem scroll_frame (APP : config) :
    (scroll APP).c_x = APP.c_x ∧ (scroll APP).c_y = APP.c_y ∧ (scroll APP).rows = APP.rows ∧
      (scroll APP).cols = APP.cols ∧ (scroll APP).row = APP.row ∧
      (scroll APP).filename = APP.filename := by
  unfold scroll
  simp only
  split_ifs <;> exact ⟨rfl, rfl, rfl, rfl, rfl, rfl⟩

theorem config_ext (A B : config) (h1 : A.c_x = B.c_x) (h2 : A.c_y = B.c_y)
    (h3 : A.row_offset = B.row_offset) (h4 : A.col_offset = B.col_offset)
    (h5 : A.rows = B.rows) (h6 : A.cols = B.cols) (h7 : A.row = B.row)
    (h8 : A.filename = B.filename) : A = B := by
  cases A
  cases B
  simp only at h1 h2 h3 h4 h5 h6 h7 h8
  simp only [config.mk.injEq]
  exact ⟨h1, h2, h3, h4, h5, h6, h7, h8⟩

/-- C16: with at least one visible row and column, the offsets `scroll` produces satisfy the
viewport invariant and are, among all offsets that satisfy it for the cursor, the closest to
the previous offsets. When the cursor is already inside the visible band `scroll` changes
nothing, so `scroll` is idempotent; otherwise the cursor ends on the nearest edge of the band:
`row_offset = c_y` when it was above, `c_y - rows + 1` when it was below, and the same for the
columns. -/
theorem scroll_minimal (APP : config) (hrows : 1 ≤ APP.rows) (hcols : 1 ≤ APP.cols) :
    viewport_inv (scroll APP) ∧
      (∀ ro : Int, ro ≤ APP.c_y → APP.c_y < ro + APP.rows →
        ((scroll APP).row_offset - APP.row_offset).natAbs ≤ (ro - APP.row_offset).natAbs) ∧
      (∀ co : Int, co ≤ APP.c_x → APP.c_x < co + APP.cols →
        ((scroll APP).col_offset - APP.col_offset).natAbs ≤ (co - APP.col_offset).natAbs) ∧
      (viewport_inv APP → scroll APP = APP) ∧
      scroll (scroll APP) = scroll APP ∧
      (APP.c_y < APP.row_offset → (scroll APP).row_offset = APP.c_y) ∧
      (APP.c_y ≥ APP.row_offset + APP.rows → (scroll APP).row_offset = APP.c_y - APP.rows + 1) ∧
      (APP.c_x < APP.col_offset → (scroll APP).col_offset = APP.c_x) ∧
      (APP.c_x ≥ APP.col_offset + APP.cols →
        (scroll APP).col_offset = APP.c_x - APP.cols + 1) := by
  have hro := scroll_row_offset APP hrows
  have hco := scroll_col_offset APP hcols
  obtain ⟨hx, hy, hr, hc, hrow, hfile⟩ := scroll_frame APP
  have hview : viewport_inv (scroll APP) := by
    unfold viewport_inv
    rw [hx, hy, hr, hc, hro, hco]
    split_ifs <;> omega
  have hfix : ∀ A : config, 1 ≤ A.rows → 1 ≤ A.cols → viewport_inv A → scroll A = A := by
    intro A hAr hAc hA
    obtain ⟨a1, a2, a3, a4⟩ := hA
    obtain ⟨hx, hy, hr, hc, hrow, hfile⟩ := scroll_frame A
    apply config_ext _ _ hx hy _ _ hr hc hrow hfile
    · rw [scroll_row_offset A hAr, if_neg (by omega), if_neg (by omega)]
    · rw [scroll_col_offset A hAc, if_neg (by omega), if_neg (by omega)]
  refine ⟨hview, ?_, ?_, hfix APP hrows hcols, ?_, ?_, ?_, ?_, ?_⟩
  · intro ro h1 h2
    rw [hro]
    split_ifs <;> omega
  · intro co h1 h2
    rw [hco]
    split_ifs <;> omega
  · exact hfix (scroll APP) (by rw [hr]; exact hrows) (by rw [hc]; exact hcols) hview
  · intro h
    rw [hro, if_pos h]
  · intro h
    rw [hro, if_neg (by omega), if_pos h]
  · intro h
    rw [hco, if_pos h]
  · intro h
    rw [hco, if_neg (by omega), if_pos h]

theorem scroll_minimal_witness :
    1 ≤ (mk_config [] 100 50).rows ∧ 1 ≤ (mk_config [] 100 50).cols ∧
      viewport_inv (scroll (mk_config [] 100 50)) ∧
      (scroll (mk_config [] 100 50)).row_offset = 50 - 24 + 1 ∧
      (scroll (mk_config [] 100 50)).col_offset = 100 - 80 + 1 ∧
      scroll (scroll (mk_config [] 100 50)) = scroll (mk_config [] 100 50) :=
  ⟨by decide, by decide, (scroll_minimal (mk_config [] 100 50) (by decide) (by decide)).1,
    (scroll_minimal (mk_config [] 100 50) (by decide) (by decide)).2.2.2.2.2.2.1 (by decide),
    (scroll_minimal (mk_config [] 100 50) (by decide) (by decide)).2.2.2.2.2.2.2.2 (by decide),
    (scroll_minimal (mk_config [] 100 50) (by decide) (by decide)).2.2.2.2.1⟩

/-! ### The `switch` of `process_keypress` -/

/-- C18: the carriage-return key (`'\r'`, 13) and the backspace key (127) leave the whole state
as it is: the `switch` of `process_keypress` goes on with the same rows, contents, renders,
cursor and offsets, and so does `process_keypress` on an input that begins with that byte. -/
theorem process_keypress_noop (APP : config) (stdin : List rd) :
    process_keypress_switch APP 13 = press_result.next APP ∧
      process_keypress_switch APP BACKSPACE = press_result.next APP ∧
      process_keypress APP (rd.byte 13 :: stdin) = keypress_result.next APP stdin ∧
      process_keypress APP (rd.byte 127 :: stdin) = keypress_result.next APP stdin :=
  ⟨rfl, rfl, rfl, rfl⟩

/-! ### Render and content -/

theorem row_insert_char_render (row : arow) (at_ : Int) (c : Int) :
    (row_insert_char row at_ c).render = (row_insert_char row at_ c).chars := by
  unfold row_insert_char
  simp only [update_row_eq]

theorem render_inv_of_rows (APP : config) (h : ∀ r ∈ APP.row, r.render = r.chars) :
    render_inv APP := by
  intro r hr
  have hrc := h r hr
  exact ⟨hrc, by unfold arow.rsize arow.size; rw [hrc]⟩

theorem render_inv_append_row (APP : config) (s : List Nat) (len : Nat) (h : render_inv APP) :
    render_inv (append_row APP s len) := by
  apply render_inv_of_rows
  intro r hr
  unfold append_row at hr
  rw [update_row_eq] at hr
  rcases List.mem_append.mp hr with h1 | h1
  · exact (h r h1).1
  · rw [List.mem_singleton.mp h1]

theorem render_inv_insert_char (APP APP1 : config) (c : Int) (h : render_inv APP)
    (hins : insert_char APP c = some APP1) : render_inv APP1 := by
  have hA : render_inv (if APP.c_y = APP.n_rows then append_row APP [] 0 else APP) := by
    split
    · exact render_inv_append_row APP [] 0 h
    · exact h
  unfold insert_char at hins
  simp only at hins
  split at hins
  · next r hr =>
    rw [Option.some.injEq] at hins
    subst hins
    apply render_inv_of_rows
    intro r1 hr1
    rcases List.mem_or_eq_of_mem_set hr1 with h1 | h1
    · exact (hA r1 h1).1
    · rw [h1]
      exact row_insert_char_render _ _ _
  · exact absurd hins (by simp)

theorem render_inv_edit_run (ops : List edit_op) (E APP : config) (hE : render_inv E)
    (hrun : edit_run E ops = some APP) : render_inv APP := by
  induction ops generalizing E with
  | nil =>
    simp only [edit_run, Option.some.injEq] at hrun
    rw [← hrun]
    exact hE
  | cons op ops ih =>
    unfold edit_run at hrun
    split at hrun
    · next E1 hstep =>
      refine ih E1 ?_ hrun
      cases op with
      | append s len =>
        simp only [edit_step, Option.some.injEq] at hstep
        rw [← hstep]
        exact render_inv_append_row E s len hE
      | insert c => exact render_inv_insert_char E E1 c hE hstep
      | cursor x y =>
        simp only [edit_step, Option.some.injEq] at hstep
        rw [← hstep]
        exact hE
    · exact absurd hrun (by simp)

/-- C15: in every state reached from an empty document by `append_row` and `insert_char`
(which calls `row_insert_char`), with the cursor placed anywhere between two edits, every row
has `render` equal to `chars` byte for byte and `rsize = size`. -/
theorem render_consistent (E : config) (ops : List edit_op) (APP : config) (hE : E.row = [])
    (hrun : edit_run E ops = some APP) : render_inv APP := by
  refine render_inv_edit_run ops E APP ?_ hrun
  intro r hr
  rw [hE] at hr
  exact absurd hr (List.not_mem_nil r)

theorem render_consistent_witness :
    (init 24 80).row = [] ∧
      edit_run (init 24 80)
          [edit_op.insert 97, edit_op.cursor 0 1, edit_op.insert 98,
            edit_op.append [99, 100, 10] 2, edit_op.cursor 1 2, edit_op.insert 120] =
        some { init 24 80 with
          row := [mk_row [97], mk_row [98], mk_row [99, 120, 100]], c_x := 2, c_y := 2 } ∧
      render_inv { init 24 80 with
        row := [mk_row [97], mk_row [98], mk_row [99, 120, 100]], c_x := 2, c_y := 2 } :=
  ⟨rfl, by decide,
    render_consistent (init 24 80)
      [edit_op.insert 97, edit_op.cursor 0 1, edit_op.insert 98,
        edit_op.append [99, 100, 10] 2, edit_op.cursor 1 2, edit_op.insert 120] _ rfl
      (by decide)⟩

/-! ### Page moves -/

/-- `move_cursor` changes the cursor only. -/
theorem move_cursor_frame (APP APP1 : config) (key : Int) (h : move_cursor APP key = some APP1) :
    APP1.row = APP.row ∧ APP1.row_offset = APP.row_offset ∧ APP1.col_offset = APP.col_offset ∧
      APP1.rows = APP.rows ∧ APP1.cols = APP.cols ∧ APP1.filename = APP.filename := by
  have hsw : ∀ S, move_cursor_switch APP key = some S →
      S.row = APP.row ∧ S.row_offset = APP.row_offset ∧ S.col_offset = APP.col_offset ∧
        S.rows = APP.rows ∧ S.cols = APP.cols ∧ S.filename = APP.filename := by
    intro S hS
    unfold move_cursor_switch at hS
    split_ifs at hS
    all_goals first
      | (rw [Option.some.injEq] at hS; subst hS; exact ⟨rfl, rfl, rfl, rfl, rfl, rfl⟩)
      | (split at hS
         · first
            | (rw [Option.some.injEq] at hS; subst hS; exact ⟨rfl, rfl, rfl, rfl, rfl, rfl⟩)
            | (split_ifs at hS <;>
                (rw [Option.some.injEq] at hS; subst hS; exact ⟨rfl, rfl, rfl, rfl, rfl, rfl⟩))
         · exact absurd hS (by simp))
  have hcl : ∀ S C, move_cursor_clamp S = some C →
      C.row = S.row ∧ C.row_offset = S.row_offset ∧ C.col_offset = S.col_offset ∧
        C.rows = S.rows ∧ C.cols = S.cols ∧ C.filename = S.filename := by
    intro S C hC
    unfold move_cursor_clamp at hC
    split_ifs at hC
    all_goals first
      | (rw [Option.some.injEq] at hC; subst hC; exact ⟨rfl, rfl, rfl, rfl, rfl, rfl⟩)
      | (split at hC
         · split_ifs at hC <;>
             (rw [Option.some.injEq] at hC; subst hC; exact ⟨rfl, rfl, rfl, rfl, rfl, rfl⟩)
         · exact absurd hC (by simp))
  unfold move_cursor at h
  split at h
  · next S hS =>
    obtain ⟨a1, a2, a3, a4, a5, a6⟩ := hsw S hS
    obtain ⟨b1, b2, b3, b4, b5, b6⟩ := hcl S APP1 h
    exact ⟨b1.trans a1, b2.trans a2, b3.trans a3, b4.trans a4, b5.trans a5, b6.trans a6⟩
  · exact absurd h (by simp)

/-- The state after `move_cursor(ARROW_UP)` and after `move_cursor(ARROW_DOWN)`, on a state
whose line is in `[0, n_rows]`, whatever the column. -/
theorem move_cursor_vertical_eq (APP : config) (hy0 : 0 ≤ APP.c_y)
    (hy1 : APP.c_y ≤ APP.n_rows) :
    move_cursor APP ARROW_UP = some { APP with
        c_y := max 0 (APP.c_y - 1),
        c_x := min APP.c_x (row_len APP (max 0 (APP.c_y - 1))) } ∧
      move_cursor APP ARROW_DOWN = some { APP with
        c_y := min APP.n_rows (APP.c_y + 1),
        c_x := min APP.c_x (row_len APP (min APP.n_rows (APP.c_y + 1))) } := by
  constructor
  · have hsw : move_cursor_switch APP ARROW_UP = some { APP with c_y := max 0 (APP.c_y - 1) } := by
      by_cases h0 : APP.c_y = 0
      · have hmax : max 0 (APP.c_y - 1) = APP.c_y := by omega
        rw [hmax, move_cursor_switch_up, if_neg (not_not.mpr h0)]
      · have hmax : max 0 (APP.c_y - 1) = APP.c_y - 1 := by omega
        rw [hmax, move_cursor_switch_up, if_pos h0]
    have hC := move_cursor_clamp_spec { APP with c_y := max 0 (APP.c_y - 1) } (by simp)
    simp only [move_cursor, hsw, hC]
    rfl
  · have hsw : move_cursor_switch APP ARROW_DOWN =
        some { APP with c_y := min APP.n_rows (APP.c_y + 1) } := by
      by_cases h0 : APP.c_y < APP.n_rows
      · have hmin : min APP.n_rows (APP.c_y + 1) = APP.c_y + 1 := by omega
        rw [hmin, move_cursor_switch_down, if_pos h0]
      · have hmin : min APP.n_rows (APP.c_y + 1) = APP.c_y := by omega
        rw [hmin, move_cursor_switch_down, if_neg h0]
    have hC := move_cursor_clamp_spec { APP with c_y := min APP.n_rows (APP.c_y + 1) }
      (by simp only; omega)
    simp only [move_cursor, hsw, hC]
    rfl

/-- A vertical move on a state whose line is in `[0, n_rows]` and whose column is not negative
returns a state that satisfies the cursor invariant. -/
theorem cursor_inv_vertical (APP : config) (y : Int) (hy0 : 0 ≤ y) (hy1 : y ≤ APP.n_rows)
    (hx0 : 0 ≤ APP.c_x) :
    cursor_inv { APP with c_y := y, c_x := min APP.c_x (row_len APP y) } := by
  have h0 := row_len_nonneg APP y
  apply cursor_inv_of_bounds
  · exact hy0
  · exact hy1
  · exact le_min hx0 h0
  · exact min_le_right _ _

/-- The loop `while (times--) move_cursor(ARROW_UP)` from a line in `[0, n_rows]`: it returns,
the line goes up by `times`, not above line `0`, and nothing but the cursor changes; the state
satisfies the cursor invariant when the loop ran at least once from a column that is not
negative. -/
theorem move_cursor_times_up (times : Nat) (APP : config) (hy0 : 0 ≤ APP.c_y)
    (hy1 : APP.c_y ≤ APP.n_rows) :
    ∃ U, move_cursor_times times APP ARROW_UP = some U ∧ U.c_y = max 0 (APP.c_y - times) ∧
      U.row = APP.row ∧ U.row_offset = APP.row_offset ∧ U.col_offset = APP.col_offset ∧
      U.rows = APP.rows ∧ U.cols = APP.cols ∧
      ((cursor_inv APP ∨ (1 ≤ times ∧ 0 ≤ APP.c_x)) → cursor_inv U) := by
  induction times generalizing APP with
  | zero =>
    refine ⟨APP, rfl, by simp; omega, rfl, rfl, rfl, rfl, rfl, fun h => ?_⟩
    rcases h with h | h
    · exact h
    · omega
  | succ n ih =>
    have hstep := (move_cursor_vertical_eq APP hy0 hy1).1
    obtain ⟨f1, f2, f3, f4, f5, f6⟩ := move_cursor_frame APP _ ARROW_UP hstep
    have hn : ({ APP with
        c_y := max 0 (APP.c_y - 1),
        c_x := min APP.c_x (row_len APP (max 0 (APP.c_y - 1))) } : config).n_rows =
        APP.n_rows := rfl
    obtain ⟨U, hU, hUy, g1, g2, g3, g4, g5, hUinv⟩ :=
      ih { APP with
        c_y := max 0 (APP.c_y - 1),
        c_x := min APP.c_x (row_len APP (max 0 (APP.c_y - 1))) }
        (by simp) (by rw [hn]; simp only; omega)
    refine ⟨U, ?_, ?_, g1.trans f1, g2.trans f2, g3.trans f3, g4.trans f4, g5.trans f5, ?_⟩
    · rw [move_cursor_times, hstep]
      exact hU
    · rw [hUy]
      simp only [Nat.cast_add, Nat.cast_one]
      omega
    · intro h
      apply hUinv
      left
      have hx0 : 0 ≤ APP.c_x := by
        rcases h with h | h
        · exact (cursor_inv_bounds APP h).2.2.1
        · exact h.2
      exact cursor_inv_vertical APP _ (by simp) (by omega) hx0

/-- The loop `while (times--) move_cursor(ARROW_DOWN)` from a line in `[0, n_rows]`: it returns,
the line goes down by `times`, not below line `n_rows`, and nothing but the cursor changes; the
state satisfies the cursor invariant when the loop ran at least once from a column that is not
negative. -/
theorem move_cursor_times_down (times : Nat) (APP : config) (hy0 : 0 ≤ APP.c_y)
    (hy1 : APP.c_y ≤ APP.n_rows) :
    ∃ D, move_cursor_times times APP ARROW_DOWN = some D ∧
      D.c_y = min APP.n_rows (APP.c_y + times) ∧
      D.row = APP.row ∧ D.row_offset = APP.row_offset ∧ D.col_offset = APP.col_offset ∧
      D.rows = APP.rows ∧ D.cols = APP.cols ∧
      ((cursor_inv APP ∨ (1 ≤ times ∧ 0 ≤ APP.c_x)) → cursor_inv D) := by
  induction times generalizing APP with
  | zero =>
    refine ⟨APP, rfl, by simp; omega, rfl, rfl, rfl, rfl, rfl, fun h => ?_⟩
    rcases h with h | h
    · exact h
    · omega
  | succ n ih =>
    have hstep := (move_cursor_vertical_eq APP hy0 hy1).2
    obtain ⟨f1, f2, f3, f4, f5, f6⟩ := move_cursor_frame APP _ ARROW_DOWN hstep
    have hn : ({ APP with
        c_y := min APP.n_rows (APP.c_y + 1),
        c_x := min APP.c_x (row_len APP (min APP.n_rows (APP.c_y + 1))) } : config).n_rows =
        APP.n_rows := rfl
    obtain ⟨D, hD, hDy, g1, g2, g3, g4, g5, hDinv⟩ :=
      ih { APP with
        c_y := min APP.n_rows (APP.c_y + 1),
        c_x := min APP.c_x (row_len APP (min APP.n_rows (APP.c_y + 1))) }
        (by simp only; omega) (by rw [hn]; simp only; omega)
    refine ⟨D, ?_, ?_, g1.trans f1, g2.trans f2, g3.trans f3, g4.trans f4, g5.trans f5, ?_⟩
    · rw [move_cursor_times, hstep]
      exact hD
    · rw [hDy, hn]
      simp only [Nat.cast_add, Nat.cast_one]
      omega
    · intro h
      apply hDinv
      left
      have hx0 : 0 ≤ APP.c_x := by
        rcases h with h | h
        · exact (cursor_inv_bounds APP h).2.2.1
        · exact h.2
      exact cursor_inv_vertical APP _ (by omega) (by omega) hx0

theorem process_keypress_switch_page_up (APP : config) :
    process_keypress_switch APP PAGE_UP =
      if APP.rows < 0 then press_result.undefined
      else
        press_result.of_option
          (move_cursor_times APP.rows.toNat { APP with c_y := APP.row_offset } ARROW_UP) := rfl

theorem process_keypress_switch_page_down (APP : config) :
    process_keypress_switch APP PAGE_DOWN =
      if APP.rows < 0 then press_result.undefined
      else
        press_result.of_option
          (move_cursor_times APP.rows.toNat
            { APP with
              c_y := if APP.row_offset + APP.rows - 1 > APP.n_rows then APP.n_rows
                else APP.row_offset + APP.rows - 1 }
            ARROW_DOWN) := rfl

/-- C17: with at least one visible row and `0 <= row_offset <= n_rows`, the page-up key puts the
cursor on line `row_offset` and runs `move_cursor(ARROW_UP)` `rows` times, which ends on line
`max(0, row_offset - rows)`; the page-down key puts the cursor on line
`min(n_rows, row_offset + rows - 1)` and runs `move_cursor(ARROW_DOWN)` `rows` times, which ends
on line `min(n_rows, row_offset + 2 * rows - 1)`. The document is unchanged. -/
theorem page_moves (APP : config) (hrows : 1 ≤ APP.rows) (hro0 : 0 ≤ APP.row_offset)
    (hro1 : APP.row_offset ≤ APP.n_rows) :
    ((APP.rows.toNat : Int) = APP.rows) ∧
      process_keypress_switch APP PAGE_UP =
        press_result.of_option
          (move_cursor_times APP.rows.toNat { APP with c_y := APP.row_offset } ARROW_UP) ∧
      (∃ U, process_keypress_switch APP PAGE_UP = press_result.next U ∧
        U.c_y = max 0 (APP.row_offset - APP.rows) ∧ U.row = APP.row) ∧
      process_keypress_switch APP PAGE_DOWN =
        press_result.of_option
          (move_cursor_times APP.rows.toNat
            { APP with c_y := min APP.n_rows (APP.row_offset + APP.rows - 1) } ARROW_DOWN) ∧
      (∃ D, process_keypress_switch APP PAGE_DOWN = press_result.next D ∧
        D.c_y = min APP.n_rows (APP.row_offset + 2 * APP.rows - 1) ∧ D.row = APP.row) := by
  have hnat : (APP.rows.toNat : Int) = APP.rows := by omega
  have hneg : ¬ APP.rows < 0 := by omega
  have hup : process_keypress_switch APP PAGE_UP =
      press_result.of_option
        (move_cursor_times APP.rows.toNat { APP with c_y := APP.row_offset } ARROW_UP) := by
    rw [process_keypress_switch_page_up, if_neg hneg]
  have hmin : (if APP.row_offset + APP.rows - 1 > APP.n_rows then APP.n_rows
      else APP.row_offset + APP.rows - 1) = min APP.n_rows (APP.row_offset + APP.rows - 1) := by
    split_ifs <;> omega
  have hdown : process_keypress_switch APP PAGE_DOWN =
      press_result.of_option
        (move_cursor_times APP.rows.toNat
          { APP with c_y := min APP.n_rows (APP.row_offset + APP.rows - 1) } ARROW_DOWN) := by
    rw [process_keypress_switch_page_down, if_neg hneg, hmin]
  refine ⟨hnat, hup, ?_, hdown, ?_⟩
  · obtain ⟨U, hU, hUy, hUrow, -⟩ :=
      move_cursor_times_up APP.rows.toNat { APP with c_y := APP.row_offset } hro0 hro1
    refine ⟨U, by rw [hup, hU]; rfl, ?_, hUrow⟩
    rw [hUy, hnat]
  · obtain ⟨D, hD, hDy, hDrow, -⟩ :=
      move_cursor_times_down APP.rows.toNat
        { APP with c_y := min APP.n_rows (APP.row_offset + APP.rows - 1) }
        (by simp only; omega) (by simp only [config.n_rows]; omega)
    refine ⟨D, by rw [hdown, hD]; rfl, ?_, hDrow⟩
    rw [hDy, hnat]
    simp only [config.n_rows]
    omega

theorem page_moves_witness :
    1 ≤ (mk_config [[97], [98], [99]] 1 2).rows ∧
      0 ≤ (mk_config [[97], [98], [99]] 1 2).row_offset ∧
      (mk_config [[97], [98], [99]] 1 2).row_offset ≤ (mk_config [[97], [98], [99]] 1 2).n_rows ∧
      (∃ U, process_keypress_switch (mk_config [[97], [98], [99]] 1 2) PAGE_UP =
          press_result.next U ∧
        U.c_y = max 0 ((mk_config [[97], [98], [99]] 1 2).row_offset -
          (mk_config [[97], [98], [99]] 1 2).rows) ∧
        U.row = (mk_config [[97], [98], [99]] 1 2).row) ∧
      process_keypress_switch (mk_config [[97], [98], [99]] 1 2) PAGE_UP =
        press_result.next (mk_config [[97], [98], [99]] 1 0) ∧
      process_keypress_switch (mk_config [[97], [98], [99]] 1 0) PAGE_DOWN =
        press_result.next (mk_config [[97], [98], [99]] 0 3) :=
  ⟨by decide, by decide, by decide,
    (page_moves (mk_config [[97], [98], [99]] 1 2) (by decide) (by decide) (by decide)).2.2.1,
    by decide, by decide⟩

/-! ### The invariant of the edit loop -/

theorem cursor_inv_congr (A B : config) (hrow : A.row = B.row) (hx : A.c_x = B.c_x)
    (hy : A.c_y = B.c_y) (h : cursor_inv B) : cursor_inv A := by
  unfold cursor_inv config.n_rows at *
  rw [row_len_congr B A hrow, hrow, hx, hy]
  exact h

theorem loop_inv_of (APP APP1 : config) (hinv : loop_inv APP) (hc : cursor_inv APP1)
    (hro : APP1.row_offset = APP.row_offset) (hco : APP1.col_offset = APP.col_offset)
    (hn : APP.n_rows ≤ APP1.n_rows) : loop_inv APP1 := by
  obtain ⟨-, h1, h2, h3⟩ := hinv
  exact ⟨hc, by omega, by omega, by omega⟩

/-- `scroll` keeps the invariant of the edit loop. -/
theorem scroll_loop_inv (APP : config) (hinv : loop_inv APP) (hrows : 1 ≤ APP.rows)
    (hcols : 1 ≤ APP.cols) : loop_inv (scroll APP) := by
  obtain ⟨hx, hy, hr, hc, hrow, -⟩ := scroll_frame APP
  obtain ⟨hcur, h1, h2, h3⟩ := hinv
  obtain ⟨b1, b2, b3, b4⟩ := cursor_inv_bounds APP hcur
  have hn : (scroll APP).n_rows = APP.n_rows := by simp [config.n_rows, hrow]
  refine ⟨cursor_inv_congr _ _ hrow hx hy hcur, ?_, ?_, ?_⟩
  · rw [scroll_row_offset APP hrows]
    split_ifs <;> omega
  · rw [scroll_row_offset APP hrows, hn]
    split_ifs <;> omega
  · rw [scroll_col_offset APP hcols]
    split_ifs <;> omega

/-- `insert_char` on the line one past the last row, for any key code `c`. -/
theorem insert_char_past_end (APP : config) (c : Int) (hy : APP.c_y = APP.n_rows) :
    insert_char APP c =
      some { APP with row := APP.row ++ [mk_row [int_to_byte c]], c_x := APP.c_x + 1 } := by
  have hrow := row_at_append_row APP [] 0 hy
  have hins : row_insert_char (mk_row []) APP.c_x c = mk_row [int_to_byte c] := by
    by_cases h : APP.c_x < 0 ∨ APP.c_x > (mk_row []).size
    · rw [row_insert_char_outside _ _ _ h]
      rfl
    · have h0 : APP.c_x = 0 := by
        simp only [mk_row, arow.size, List.length_nil] at h
        omega
      rw [row_insert_char_inside _ _ _ (by omega) (by simp [h0, arow.size]), h0]
      rfl
  have hn : APP.c_y.toNat = APP.row.length := by
    unfold config.n_rows at hy
    omega
  unfold insert_char
  simp only [if_pos hy]
  have hrow1 : row_at (append_row APP [] 0) (append_row APP [] 0).c_y = some (mk_row []) := hrow
  rw [hrow1]
  have hins1 : row_insert_char (mk_row []) (append_row APP [] 0).c_x c =
      mk_row [int_to_byte c] := hins
  simp only [hins1]
  simp only [append_row, update_row_eq, hn, List.take_nil]
  rw [set_last]

/-- `insert_char` on a line that has a row `r`, for any key code `c`. -/
theorem insert_char_on_row (APP : config) (c : Int) (r : arow) (hy : APP.c_y < APP.n_rows)
    (hr : row_at APP APP.c_y = some r) :
    insert_char APP c =
      some { APP with
        row := APP.row.set APP.c_y.toNat (row_insert_char r APP.c_x c),
        c_x := APP.c_x + 1 } := by
  unfold insert_char
  simp only [if_neg (ne_of_lt hy), hr]

/-- `insert_char` keeps the cursor invariant: it returns, the document does not lose a row, and
the offsets and the screen size stay. -/
theorem insert_char_inv (APP : config) (c : Int) (hinv : cursor_inv APP) :
    ∃ APP1, insert_char APP c = some APP1 ∧ cursor_inv APP1 ∧ APP.n_rows ≤ APP1.n_rows ∧
      APP1.row_offset = APP.row_offset ∧ APP1.col_offset = APP.col_offset ∧
      APP1.rows = APP.rows ∧ APP1.cols = APP.cols := by
  obtain ⟨hy0, hy1, hx0, hx1⟩ := cursor_inv_bounds APP hinv
  by_cases hy : APP.c_y = APP.n_rows
  · refine ⟨_, insert_char_past_end APP c hy, ?_, ?_, rfl, rfl, rfl, rfl⟩
    · have hx : APP.c_x = 0 := hinv.2.2.2 hy
      have hlen : APP.c_y.toNat = APP.row.length := by
        unfold config.n_rows at hy
        omega
      apply cursor_inv_of_bounds
      · exact hy0
      · simp only [config.n_rows, List.length_append, List.length_singleton, Nat.cast_add,
          Nat.cast_one]
        unfold config.n_rows at hy
        omega
      · simp only
        omega
      · have hrl : row_len { APP with
            row := APP.row ++ [mk_row [int_to_byte c]], c_x := APP.c_x + 1 } APP.c_y = 1 := by
          simp [row_len, row_at, hy0, hlen, mk_row, arow.size]
        simp only
        rw [hrl]
        omega
    · simp [config.n_rows]
  · have hlt : APP.c_y < APP.n_rows := by omega
    obtain ⟨r, hr⟩ := row_at_some APP APP.c_y hy0 hlt
    have hsz := row_len_of_row_at APP APP.c_y r hr
    refine ⟨_, insert_char_on_row APP c r hlt hr, ?_, ?_, rfl, rfl, rfl, rfl⟩
    · have hidx : APP.c_y.toNat < APP.row.length := by
        unfold config.n_rows at hlt
        omega
      have hnew : (row_insert_char r APP.c_x c).size = r.size + 1 := by
        rw [row_insert_char_inside r APP.c_x c hx0 (by omega)]
        rw [hsz] at hx1
        unfold arow.size at hx1 ⊢
        simp only [mk_row, List.length_append, List.length_take, List.length_drop,
          List.length_singleton]
        omega
      apply cursor_inv_of_bounds
      · exact hy0
      · simp only [config.n_rows, List.length_set]
        exact hy1
      · simp only
        omega
      · have hrl : row_len { APP with
            row := APP.row.set APP.c_y.toNat (row_insert_char r APP.c_x c),
            c_x := APP.c_x + 1 } APP.c_y = r.size + 1 := by
          simp [row_len, row_at, hy0, List.getElem?_set_self hidx, hnew]
        simp only
        rw [hrl]
        omega
    · simp [config.n_rows]

theorem process_keypress_switch_end (APP : config) :
    process_keypress_switch APP END_KEY =
      if APP.c_y < APP.n_rows then
        match row_at APP APP.c_y with
        | some r => press_result.next { APP with c_x := r.size }
        | none => press_result.undefined
      else press_result.next APP := rfl

theorem process_keypress_switch_default (APP : config) (c : Int) (h13 : c ≠ 13)
    (hq : c ≠ CTRL_KEY 113) (hhome : c ≠ HOME_KEY) (hend : c ≠ END_KEY)
    (hpage : ¬ (c = PAGE_UP ∨ c = PAGE_DOWN))
    (harrow : ¬ (c = ARROW_UP ∨ c = ARROW_DOWN ∨ c = ARROW_LEFT ∨ c = ARROW_RIGHT))
    (hl : ¬ (c = CTRL_KEY 108 ∨ c = 27)) (hs : c ≠ CTRL_KEY 115) (hb : c ≠ BACKSPACE) :
    process_keypress_switch APP c = press_result.of_option (insert_char APP c) := by
  unfold process_keypress_switch
  rw [if_neg h13, if_neg hq, if_neg hhome, if_neg hend, if_neg hpage, if_neg harrow, if_neg hl,
    if_neg hs, if_neg hb]

/-- The `switch` of `process_keypress` keeps the invariant of the edit loop, for every key but
quit and save: it goes on with a state that satisfies it, on the same screen. It never reads a
row outside the document. -/
theorem process_keypress_switch_inv (APP : config) (c : Int) (hinv : loop_inv APP)
    (hrows : 1 ≤ APP.rows) (hq : c ≠ CTRL_KEY 113) (hs : c ≠ CTRL_KEY 115) :
    ∃ APP1, process_keypress_switch APP c = press_result.next APP1 ∧ loop_inv APP1 ∧
      APP1.rows = APP.rows ∧ APP1.cols = APP.cols := by
  have hcur := hinv.1
  obtain ⟨hy0, hy1, hx0, hx1⟩ := cursor_inv_bounds APP hcur
  have hro0 := hinv.2.1
  have hro1 := hinv.2.2.1
  by_cases h13 : c = 13
  · subst h13
    exact ⟨APP, rfl, hinv, rfl, rfl⟩
  by_cases hhome : c = HOME_KEY
  · subst hhome
    refine ⟨{ APP with c_x := 0 }, rfl, ?_, rfl, rfl⟩
    refine loop_inv_of APP _ hinv ?_ rfl rfl (le_refl _)
    exact cursor_inv_of_bounds { APP with c_x := 0 } hy0 hy1 (le_refl _) (row_len_nonneg _ _)
  by_cases hend : c = END_KEY
  · subst hend
    rw [process_keypress_switch_end]
    by_cases hlt : APP.c_y < APP.n_rows
    · obtain ⟨r, hr⟩ := row_at_some APP APP.c_y hy0 hlt
      rw [if_pos hlt, hr]
      refine ⟨{ APP with c_x := r.size }, rfl, ?_, rfl, rfl⟩
      refine loop_inv_of APP _ hinv ?_ rfl rfl (le_refl _)
      have hr1 : row_at { APP with c_x := r.size } APP.c_y = some r := hr
      refine cursor_inv_of_bounds { APP with c_x := r.size } hy0 hy1 ?_ ?_
      · simp [arow.size]
      · have hlen := row_len_of_row_at _ _ r hr1
        simp only
        rw [hlen]
    · rw [if_neg hlt]
      exact ⟨APP, rfl, hinv, rfl, rfl⟩
  by_cases hpage : c = PAGE_UP ∨ c = PAGE_DOWN
  · have hneg : ¬ APP.rows < 0 := by omega
    have hone : 1 ≤ APP.rows.toNat := by omega
    rcases hpage with hpu | hpd
    · subst hpu
      obtain ⟨U, hU, -, g1, g2, g3, g4, g5, hUinv⟩ :=
        move_cursor_times_up APP.rows.toNat { APP with c_y := APP.row_offset } hro0 hro1
      refine ⟨U, ?_, ?_, g4, g5⟩
      · rw [process_keypress_switch_page_up, if_neg hneg, hU]
        rfl
      · refine loop_inv_of APP U hinv (hUinv (Or.inr ⟨hone, hx0⟩)) g2 g3 ?_
        simp [config.n_rows, g1]
    · subst hpd
      have hmin : (if APP.row_offset + APP.rows - 1 > APP.n_rows then APP.n_rows
          else APP.row_offset + APP.rows - 1) =
          min APP.n_rows (APP.row_offset + APP.rows - 1) := by
        split_ifs <;> omega
      obtain ⟨D, hD, -, g1, g2, g3, g4, g5, hDinv⟩ :=
        move_cursor_times_down APP.rows.toNat
          { APP with c_y := min APP.n_rows (APP.row_offset + APP.rows - 1) }
          (by simp only; omega) (by simp only [config.n_rows]; omega)
      refine ⟨D, ?_, ?_, g4, g5⟩
      · rw [process_keypress_switch_page_down, if_neg hneg, hmin, hD]
        rfl
      · refine loop_inv_of APP D hinv (hDinv (Or.inr ⟨hone, hx0⟩)) g2 g3 ?_
        simp [config.n_rows, g1]
  by_cases harrow : c = ARROW_UP ∨ c = ARROW_DOWN ∨ c = ARROW_LEFT ∨ c = ARROW_RIGHT
  · obtain ⟨M, hM, hMinv, hMrow⟩ := move_cursor_inv_step APP c hcur
    obtain ⟨-, g2, g3, g4, g5, -⟩ := move_cursor_frame APP M c hM
    have hsw : process_keypress_switch APP c = press_result.of_option (move_cursor APP c) := by
      rcases harrow with h | h | h | h <;> (subst h; rfl)
    refine ⟨M, by rw [hsw, hM]; rfl, ?_, g4, g5⟩
    refine loop_inv_of APP M hinv hMinv g2 g3 ?_
    simp [config.n_rows, hMrow]
  by_cases hl : c = CTRL_KEY 108 ∨ c = 27
  · rcases hl with h | h <;> (subst h; exact ⟨APP, rfl, hinv, rfl, rfl⟩)
  by_cases hb : c = BACKSPACE
  · subst hb
    exact ⟨APP, rfl, hinv, rfl, rfl⟩
  obtain ⟨I, hI, hIinv, hIn, g2, g3, g4, g5⟩ := insert_char_inv APP c hcur
  refine ⟨I, ?_, loop_inv_of APP I hinv hIinv g2 g3 hIn, g4, g5⟩
  rw [process_keypress_switch_default APP c h13 hq hhome hend hpage harrow hl hs hb, hI]
  rfl

theorem edit_loop_inv_from (keys : List Int) (APP : config) (hinv : loop_inv APP)
    (hrows : 1 ≤ APP.rows) (hcols : 1 ≤ APP.cols)
    (hkeys : ∀ c ∈ keys, c ≠ CTRL_KEY 113 ∧ c ≠ CTRL_KEY 115) :
    ∃ APP1, edit_loop APP keys = press_result.next APP1 ∧ loop_inv APP1 := by
  induction keys generalizing APP with
  | nil => exact ⟨APP, rfl, hinv⟩
  | cons c keys ih =>
    obtain ⟨hx, hy, hr, hc, hrow, -⟩ := scroll_frame APP
    have hsc := scroll_loop_inv APP hinv hrows hcols
    have hc1 := hkeys c (List.mem_cons_self c keys)
    obtain ⟨S, hS, hSinv, hSr, hSc⟩ :=
      process_keypress_switch_inv (scroll APP) c hsc (by rw [hr]; exact hrows) hc1.1 hc1.2
    obtain ⟨T, hT, hTinv⟩ := ih S hSinv (by rw [hSr, hr]; exact hrows)
      (by rw [hSc, hc]; exact hcols) (fun k hk => hkeys k (List.mem_cons_of_mem c hk))
    refine ⟨T, ?_, hTinv⟩
    rw [edit_loop, hS]
    exact hT

/-- C19: on a screen with at least one visible row and one column (`init` keeps one row of the
terminal for the status bar, so the terminal has two rows or more), from the state `init` sets
up (empty document, cursor and offsets `0`), every run of the loop, `scroll()` and then the
`switch` of `process_keypress` on a key that is not quit or save, goes on (no key reads a row
outside the document, so `insert_char` and the END key index `APP.row` inside `[0, n_rows)`),
and the state it reaches satisfies `0 <= c_y <= n_rows`, `0 <= c_x <= size of row c_y`
(`c_x = 0` when `c_y = n_rows`), `0 <= row_offset <= n_rows` and `0 <= col_offset`. -/
theorem edit_loop_inv (rows cols : Int) (keys : List Int) (hrows : 2 ≤ rows) (hcols : 1 ≤ cols)
    (hkeys : ∀ c ∈ keys, c ≠ CTRL_KEY 113 ∧ c ≠ CTRL_KEY 115) :
    ∃ APP, edit_loop (init rows cols) keys = press_result.next APP ∧ loop_inv APP := by
  have hinit : loop_inv (init rows cols) := by
    refine ⟨?_, le_refl _, le_refl _, le_refl _⟩
    exact ⟨le_refl _, le_refl _, fun h => absurd h (lt_irrefl _), fun _ => rfl⟩
  exact edit_loop_inv_from keys (init rows cols) hinit (by simp only [init]; omega) hcols hkeys

theorem edit_loop_inv_witness :
    (2 : Int) ≤ 24 ∧ (1 : Int) ≤ 80 ∧
      (∀ c ∈ [97, ARROW_DOWN, 98, PAGE_UP, END_KEY, 99, PAGE_DOWN, DEL_KEY, ARROW_LEFT, HOME_KEY],
        c ≠ CTRL_KEY 113 ∧ c ≠ CTRL_KEY 115) ∧
      ∃ APP, edit_loop (init 24 80)
          [97, ARROW_DOWN, 98, PAGE_UP, END_KEY, 99, PAGE_DOWN, DEL_KEY, ARROW_LEFT, HOME_KEY] =
            press_result.next APP ∧ loop_inv APP :=
  ⟨by decide, by decide, by decide,
    edit_loop_inv 24 80
      [97, ARROW_DOWN, 98, PAGE_UP, END_KEY, 99, PAGE_DOWN, DEL_KEY, ARROW_LEFT, HOME_KEY]
      (by decide) (by decide) (by decide)⟩

/-! ### Defects of the renderer and of the key dispatch -/

/-- What `draw_rows` appends for a screen row whose document line exists, with a column offset
that is not negative: the render from index `col_offset` to its end, whatever its length (no
byte when the render is not longer than `col_offset`), then the clear-line sequence and
`"\r\n"`. -/
theorem draw_row_existing (APP : config) (i : Int) (r : arow)
    (hr : row_at APP (i + APP.row_offset) = some r) (hco : 0 ≤ APP.col_offset) :
    draw_row APP i = some (r.render.drop APP.col_offset.toNat ++ CLEAR_LINE ++ [13, 10]) := by
  have hlt : ¬ (i + APP.row_offset ≥ APP.n_rows) := by
    intro hge
    rw [row_at_none APP _ hge] at hr
    exact absurd hr (by simp)
  unfold draw_row
  simp only [if_neg hlt, hr, if_neg (not_lt.mpr hco)]
  congr 3
  apply List.take_of_length_le
  unfold arow.rsize
  rw [List.length_drop]
  split_ifs <;> omega

set_option maxRecDepth 1000000 in
/-- C14 fails on the code: after a hundred `a` and the home key on a 24 by 80 terminal, `scroll`
sets the column offset to `0` and `draw_rows` appends for the first screen row all hundred
bytes of the render, twenty more than the 80 visible columns, before the clear-line sequence
and `"\r\n"`. -/
theorem draw_rows_not_clipped :
    edit_loop (init 24 80) (List.replicate 100 97 ++ [HOME_KEY]) =
        press_result.next long_row_home ∧
      (scroll long_row_home).cols = 80 ∧ (scroll long_row_home).col_offset = 0 ∧
      draw_row (scroll long_row_home) 0 =
        some (List.replicate 100 97 ++ CLEAR_LINE ++ [13, 10]) := by
  decide

set_option maxRecDepth 1000000 in
theorem draw_rows_long_row_typed : (draw_rows (scroll long_row_typed)).isSome = true := by
  decide

set_option maxRecDepth 1000000 in
/-- C13 fails on the code: after a hundred `a` on a 24 by 80 terminal, `scroll` sets the column
offset to `21`, and the frame of `refresh_screen`, whatever the status bar, ends with the
cursor-position sequence `ESC [ 1 ; 122 H` (column `c_x + col_offset + 1`) and the show-cursor
sequence; the sequence derived from `(c_x - col_offset, c_y - row_offset)` is
`ESC [ 1 ; 80 H`. -/
theorem refresh_screen_cursor_misplaced (status_bar : List Nat) :
    edit_loop (init 24 80) (List.replicate 100 97) = press_result.next long_row_typed ∧
      (scroll long_row_typed).col_offset = 21 ∧ (scroll long_row_typed).row_offset = 0 ∧
      cursor_position (scroll long_row_typed) = [27, 91, 49, 59, 49, 50, 50, 72] ∧
      spec_cursor_position (scroll long_row_typed) = [27, 91, 49, 59, 56, 48, 72] ∧
      ∃ before, refresh_screen long_row_typed status_bar =
        some (scroll long_row_typed,
          before ++ [27, 91, 49, 59, 49, 50, 50, 72] ++ VISIBLE_CURSOR) := by
  have hcur : cursor_position (scroll long_row_typed) = [27, 91, 49, 59, 49, 50, 50, 72] := by
    decide
  refine ⟨by decide, by decide, by decide, hcur, by decide, ?_⟩
  obtain ⟨rows_bytes, hrows⟩ := Option.isSome_iff_exists.mp draw_rows_long_row_typed
  refine ⟨INVISIBLE_CURSOR ++ INIT_CURSOR_POSITION ++ rows_bytes ++ status_bar, ?_⟩
  simp only [refresh_screen, hrows, hcur]

/-- C20 fails on the code: the `switch` of `process_keypress` has no case for the delete key, so
`DEL_KEY` (1004) reaches the default case and `insert_char(1004)` runs. On the empty document
the input ESC `[` `3` `~` is decoded as the delete key and leaves a document of one row that
holds the byte 236 (1004 modulo 256). -/
theorem del_key_inserts_byte (APP : config) :
    process_keypress_switch APP DEL_KEY = press_result.of_option (insert_char APP 1004) ∧
      read_key [rd.byte 27, rd.byte 91, rd.byte 51, rd.byte 126] = key_result.key DEL_KEY [] ∧
      process_keypress (init 24 80) [rd.byte 27, rd.byte 91, rd.byte 51, rd.byte 126] =
        keypress_result.next { init 24 80 with row := [mk_row [236]], c_x := 1 } [] ∧
      contents (init 24 80) = [] ∧
      contents { init 24 80 with row := [mk_row [236]], c_x := 1 } = [[236]] :=
  ⟨rfl, rfl, by decide, rfl, rfl⟩

end Go22dos
